import Mathlib

/-!
# A RISC-V subset interpreter over a sparse byte store

Shallow embedding of `linkedlist.c`, `hashtable.c` and `riscv.c`.

Conventions of the embedding:

* a C `int` is an `Int` in `[-2^31, 2^31)`; every arithmetic result is brought
  back into that range by `wrap32` (two's complement wrap-around), an
  `unsigned int` is a `Nat` below `2^32`;
* a C string is the `List Char` of its bytes before the terminator, a
  `char *` that may be `NULL` is an `Option (List Char)`;
* code that dereferences `NULL`, indexes an array out of its bounds, reads
  past the end of the line it was given or divides by zero returns `none`;
* `remove_spaces` works in place: the bytes it leaves behind the new
  terminator stay in the buffer and are what `atoi(tok + 1)` reads for an empty
  last token;
* the two process-wide pointers `registers` and `memory` of `riscv.c` become
  the two fields of `Machine`, passed explicitly.
-/

namespace CodeSamples

/-! ## 32-bit machine integers -/

/-- Conversion of an `int` to `unsigned int`: the value modulo `2^32`. -/
def toU32 (x : Int) : Nat := (x % 4294967296).toNat

/-- Conversion of a 32-bit pattern to `int`: two's complement reading. -/
def ofU32 (n : Nat) : Int :=
  if n % 4294967296 < 2147483648 then ((n % 4294967296 : Nat) : Int)
  else ((n % 4294967296 : Nat) : Int) - 4294967296

/-- Result of an `int` computation whose mathematical value is `x`. -/
def wrap32 (x : Int) : Int := ofU32 (toU32 x)

/-- The values an `int` can hold. -/
def isInt32 (x : Int) : Prop := -2147483648 ≤ x ∧ x < 2147483648

instance (x : Int) : Decidable (isInt32 x) := by
  unfold isInt32; infer_instance

/-- C `a + b` on `int`. -/
def add32 (a b : Int) : Int := wrap32 (a + b)

/-- C `a - b` on `int`. -/
def sub32 (a b : Int) : Int := wrap32 (a - b)

/-- C `a & b` on `int`. -/
def and32 (a b : Int) : Int := ofU32 (toU32 a &&& toU32 b)

/-- C `a | b` on `int`. -/
def or32 (a b : Int) : Int := ofU32 (toU32 a ||| toU32 b)

/-- C `a ^ b` on `int`. -/
def xor32 (a b : Int) : Int := ofU32 (toU32 a ^^^ toU32 b)

/-- C `~a` on `int`. -/
def not32 (a : Int) : Int := ofU32 (toU32 a ^^^ 4294967295)

/-- C `a << k` on `int`, the bits shifted out being dropped. -/
def shl32 (a : Int) (k : Nat) : Int := ofU32 (toU32 a <<< k)

/-- C `a >> k` on `int`: arithmetic shift, the sign bit is replicated. -/
def sar32 (a : Int) (k : Nat) : Int := a >>> k

/-! ## linkedlist.c -/

/-- The `struct linkedlist_node`: an `unsigned int` key and an `int` value;
the `next` pointer is the tail of the list of nodes. -/
structure linkedlist_node where
  key : Nat
  value : Int
  deriving DecidableEq

/-- The `struct linkedlist`: the chain of nodes from `first` and the
`unsigned int` counter `size`. -/
structure linkedlist where
  first : List linkedlist_node
  size : Nat
  deriving DecidableEq

/-- Function `ll_init`: the empty list. -/
def ll_init : linkedlist := { first := [], size := 0 }

/-- The `while` loop of `ll_add`: `some` chain with the value of the first node
holding `key` overwritten, or `none` when the walk reaches `NULL`. -/
def ll_add_loop (key : Nat) (value : Int) : List linkedlist_node → Option (List linkedlist_node)
  | [] => none
  | node :: next =>
    if node.key = key then some ({ node with value := value } :: next)
    else (ll_add_loop key value next).map (fun rest => node :: rest)

/-- Function `ll_add`: overwrite the value of an existing node, otherwise put a new
node in front and increment `size` (an `unsigned int`). The `int` key is
compared and stored as `unsigned int`. -/
def ll_add (list : linkedlist) (key value : Int) : linkedlist :=
  match ll_add_loop (toU32 key) value list.first with
  | some nodes => { list with first := nodes }
  | none =>
    { first := { key := toU32 key, value := value } :: list.first,
      size := (list.size + 1) % 4294967296 }

/-- The `while` loop of `ll_get`. -/
def ll_get_loop (key : Nat) : List linkedlist_node → Int
  | [] => 0
  | node :: next => if node.key = key then node.value else ll_get_loop key next

/-- Function `ll_get`: value of the first node with a matching key, 0 without one. -/
def ll_get (list : linkedlist) (key : Int) : Int := ll_get_loop (toU32 key) list.first

/-- Function `ll_size`: the counter of the list, returned as an `int`. -/
def ll_size (list : linkedlist) : Int := ofU32 list.size

/-! ## hashtable.c -/

/-- The `struct hashtable`: the array of buckets, and the two `unsigned int`
fields `num_buckets` and `size`. -/
structure hashtable where
  buckets : List linkedlist
  num_buckets : Nat
  size : Nat
  deriving DecidableEq

/-- Function `hash`: `key = (key > 0) ? key : -key; return key % max_range;`. The
negation wraps at `-2^31`, `%` is the truncating remainder of C, and a
remainder the machine cannot compute (`max_range = 0`, or `-2^31 % -1`) is
`none`. -/
def hash (key max_range : Int) : Option Int :=
  let key := if key > 0 then key else wrap32 (-key)
  if max_range = 0 ∨ (key = -2147483648 ∧ max_range = -1) then none
  else some (Int.tmod key max_range)

/-- Function `ht_init`: `num_buckets` empty lists, size 0. -/
def ht_init (num_buckets : Int) : hashtable :=
  { buckets := List.replicate num_buckets.toNat ll_init,
    num_buckets := toU32 num_buckets,
    size := 0 }

/-- Read of `table->buckets[index]`, `none` outside of the array. -/
def bucket_at (buckets : List linkedlist) (index : Int) : Option linkedlist :=
  if 0 ≤ index then buckets[index.toNat]? else none

/-- Function `ht_add`: `ll_add` into the bucket of the key; `size` is incremented when
the list grew, the two results of `ll_size` being compared as `int`. -/
def ht_add (table : hashtable) (key value : Int) : Option hashtable :=
  match hash key (ofU32 table.num_buckets) with
  | none => none
  | some index =>
    match bucket_at table.buckets index with
    | none => none
    | some list =>
      let prev_size := ll_size list
      let list := ll_add list key value
      some { table with
        buckets := table.buckets.set index.toNat list,
        size := if ll_size list > prev_size then (table.size + 1) % 4294967296
                else table.size }

/-- Function `ht_get`: `ll_get` in the bucket of the key. -/
def ht_get (table : hashtable) (key : Int) : Option Int :=
  match hash key (ofU32 table.num_buckets) with
  | none => none
  | some index =>
    match bucket_at table.buckets index with
    | none => none
    | some list => some (ll_get list key)

/-- Function `ht_size`: the counter of the table. -/
def ht_size (table : hashtable) : Nat := table.size

/-! ## riscv.c: strings -/

/-- Library function `strsep(&stringp, delim)` for a one-character delimiter
set: the token up to the first delimiter, and the new `*stringp`, which is the
text after that delimiter, or `NULL` when there is none. On `*stringp = NULL`
it returns `NULL`. -/
def strsep (stringp : Option (List Char)) (delim : Char) :
    Option (List Char) × Option (List Char) :=
  match stringp with
  | none => (none, none)
  | some s =>
    (some (s.takeWhile (fun c => c != delim)),
     match s.dropWhile (fun c => c != delim) with
     | [] => none
     | _ :: rest => some rest)

/-- Function `remove_spaces`: the string without its `' '` characters. -/
def remove_spaces (str : List Char) : List Char := str.filter (fun c => c != ' ')

/-- The string found in the buffer right after the terminator that
`remove_spaces` writes. The loop copies `counter` characters and writes the
terminator at index `counter`; the bytes after it are not touched. When a space
was removed (`counter` is less than the length of `str`), the string at index
`counter + 1` is the end of the old text from that index on. When no space was
removed the new terminator is the old one, and what follows is `beyond`: the
string that the buffer of the caller holds after the terminator of the line,
`none` when the buffer ends at that terminator. -/
def left_behind (str : List Char) (beyond : Option (List Char)) : Option (List Char) :=
  if (remove_spaces str).length < str.length then
    some (str.drop ((remove_spaces str).length + 1))
  else beyond

/-- The string at `tok + 1`, for a token `tok` just returned by `strsep` which
left `rest` in `*stringp`, in a buffer that holds `behind` after the
terminator of the whole string. A non-empty token loses its first character.
An empty token whose delimiter was found is followed in the buffer by the text
after that delimiter, up to the end of the string. An empty token with no
delimiter is the empty end of the string, so `tok + 1` is the byte after the
terminator: the string read there is `behind`. A `NULL` token is `none`. -/
def skip_first (tok rest behind : Option (List Char)) : Option (List Char) :=
  match tok with
  | none => none
  | some (_ :: t) => some t
  | some [] =>
    match rest with
    | some r => some r
    | none => behind

/-- Library function `isspace` in the C locale. -/
def isspace (c : Char) : Bool :=
  c = ' ' || c = '\t' || c = '\n' || c.toNat = 11 || c.toNat = 12 || c = '\r'

/-- Value of a character as a digit of `strtol`, letters counting from 10. -/
def digit_value (c : Char) : Option Nat :=
  if '0' ≤ c ∧ c ≤ '9' then some (c.toNat - 48)
  else if 'a' ≤ c ∧ c ≤ 'z' then some (c.toNat - 97 + 10)
  else if 'A' ≤ c ∧ c ≤ 'Z' then some (c.toNat - 65 + 10)
  else none

/-- The digit loop of `strtol`: it stops at the first character that is not a
digit of the base. -/
def strtol_digits (base : Nat) (acc : Nat) : List Char → Nat
  | [] => acc
  | c :: cs =>
    match digit_value c with
    | some d => if d < base then strtol_digits base (acc * base + d) cs else acc
    | none => acc

/-- The least value of a `long` (64 bits). -/
def LONG_MIN : Int := -9223372036854775808

/-- The greatest value of a `long` (64 bits). -/
def LONG_MAX : Int := 9223372036854775807

/-- Library function `strtol(nptr, NULL, base)` for base 10 and 16: leading
white space, an optional sign, for base 16 an optional `0x` or `0X`, then the
digits; a value out of the range of `long` is clamped to `LONG_MIN` or
`LONG_MAX`. -/
def strtol (nptr : List Char) (base : Nat) : Int :=
  let s := nptr.dropWhile isspace
  let neg := s.head? = some '-'
  let s := if s.head? = some '-' ∨ s.head? = some '+' then s.tail else s
  let s := if base = 16 then
      (match s with
       | '0' :: 'x' :: t => t
       | '0' :: 'X' :: t => t
       | _ => s)
    else s
  let v : Int := strtol_digits base 0 s
  if neg then max (-v) LONG_MIN else min v LONG_MAX

/-- Library function `atoi(nptr)`, which is `(int) strtol(nptr, NULL, 10)`. -/
def atoi (nptr : List Char) : Int := wrap32 (strtol nptr 10)

/-- Function `get_immediate`: hexadecimal after `0x`, negated hexadecimal
after `-0x`, decimal otherwise; the `long` result is converted to `int`. -/
def get_immediate (str : List Char) : Int :=
  match str with
  | '0' :: 'x' :: t => wrap32 (strtol t 16)
  | '-' :: '0' :: 'x' :: t => wrap32 (-1 * strtol t 16)
  | _ => atoi str

/-! ## riscv.c: decoder -/

/-- The constant `R_TYPE`. -/
def R_TYPE : Int := 0

/-- The constant `I_TYPE`. -/
def I_TYPE : Int := 1

/-- The constant `MEM_TYPE`. -/
def MEM_TYPE : Int := 2

/-- The constant `U_TYPE`. -/
def U_TYPE : Int := 3

/-- The constant `UNKNOWN_TYPE`. -/
def UNKNOWN_TYPE : Int := 4

/-- The table `r_type_op`. -/
def r_type_op : List (List Char) :=
  ["add".toList, "sub".toList, "and".toList, "or".toList, "xor".toList, "nor".toList,
   "slt".toList, "sll".toList, "sra".toList]

/-- The table `i_type_op`. -/
def i_type_op : List (List Char) :=
  ["addi".toList, "andi".toList, "ori".toList, "xori".toList, "slti".toList]

/-- The table `mem_type_op`. -/
def mem_type_op : List (List Char) := ["lw".toList, "lb".toList, "sw".toList, "sb".toList]

/-- The table `u_type_op`. -/
def u_type_op : List (List Char) := ["lui".toList]

/-- Function `get_op_type`: the four tables are searched in turn with `strcmp`. -/
def get_op_type (op : List Char) : Int :=
  if op ∈ r_type_op then R_TYPE
  else if op ∈ i_type_op then I_TYPE
  else if op ∈ mem_type_op then MEM_TYPE
  else if op ∈ u_type_op then U_TYPE
  else UNKNOWN_TYPE

/-! ## riscv.c: machine state -/

/-- Modelled from the spec: the type `registers_t` of `riscv.h`, which is not
among the sources; its field `r` is "a fixed-size ordered sequence of 32 signed
32-bit integers, indexed 0-31". -/
structure registers_t where
  r : Fin 32 → Int

/-- The two globals of `riscv.c`: `registers` and `memory`. -/
structure Machine where
  registers : registers_t
  memory : hashtable

/-- Function `init`: keeps the caller's registers and creates a memory of 256 buckets. -/
def init (starting_registers : registers_t) : Machine :=
  { registers := starting_registers, memory := ht_init 256 }

/-- Read of `registers->r[i]`, `none` outside of the array. -/
def reg_read (registers : registers_t) (i : Int) : Option Int :=
  if h : 0 ≤ i ∧ i < 32 then some (registers.r ⟨i.toNat, by omega⟩) else none

/-- The register file after `r[i] = v` for an index inside the array. -/
def set_reg (registers : registers_t) (i : Fin 32) (v : Int) : registers_t :=
  { r := fun j => if j = i then v else registers.r j }

/-- Assignment `registers->r[i] = v`, `none` outside of the array. -/
def reg_write (registers : registers_t) (i : Int) (v : Int) : Option registers_t :=
  if h : 0 ≤ i ∧ i < 32 then some (set_reg registers ⟨i.toNat, by omega⟩ v) else none

/-- Call `atoi(tok + 1)` for a token `tok` just returned by `strsep`. -/
def atoi_after_x (tok rest behind : Option (List Char)) : Option Int :=
  (skip_first tok rest behind).map atoi

/-! ## riscv.c: step -/

/-- The `R_TYPE` branch of `step`: three register tokens, the two sources are
read, then the chain of `strcmp(op, ...)` writes the destination. -/
def step_r_type (m : Machine) (op reduced_ins : List Char)
    (behind : Option (List Char)) : Option Machine :=
  let p1 := strsep (some reduced_ins) ','
  let p2 := strsep p1.2 ','
  let p3 := strsep p2.2 ','
  match atoi_after_x p1.1 p1.2 behind, atoi_after_x p2.1 p2.2 behind,
        atoi_after_x p3.1 p3.2 behind with
  | some store_reg, some arg1_reg, some arg2_reg =>
    match reg_read m.registers arg1_reg, reg_read m.registers arg2_reg with
    | some arg1_val, some arg2_val =>
      let write := fun (v : Int) =>
        (reg_write m.registers store_reg v).map (fun regs => { m with registers := regs })
      if op = "add".toList then write (add32 arg1_val arg2_val)
      else if op = "sub".toList then write (sub32 arg1_val arg2_val)
      else if op = "and".toList then write (and32 arg1_val arg2_val)
      else if op = "or".toList then write (or32 arg1_val arg2_val)
      else if op = "xor".toList then write (xor32 arg1_val arg2_val)
      else if op = "nor".toList then write (not32 (or32 arg1_val arg2_val))
      else if op = "slt".toList then write (if arg1_val < arg2_val then 1 else 0)
      else if op = "sll".toList then write (shl32 arg1_val (toU32 (and32 31 arg2_val)))
      else if op = "sra".toList then write (sar32 arg1_val (toU32 (and32 31 arg2_val)))
      else some m
    | _, _ => none
  | _, _, _ => none

/-- The `I_TYPE` branch of `step`: two register tokens and an immediate. -/
def step_i_type (m : Machine) (op reduced_ins : List Char)
    (behind : Option (List Char)) : Option Machine :=
  let p1 := strsep (some reduced_ins) ','
  let p2 := strsep p1.2 ','
  match atoi_after_x p1.1 p1.2 behind, atoi_after_x p2.1 p2.2 behind, p2.2 with
  | some store_reg, some arg1_reg, some imm_str =>
    match reg_read m.registers arg1_reg with
    | some arg1_val =>
      let imm := get_immediate imm_str
      let write := fun (v : Int) =>
        (reg_write m.registers store_reg v).map (fun regs => { m with registers := regs })
      if op = "addi".toList then write (add32 arg1_val imm)
      else if op = "andi".toList then write (and32 arg1_val imm)
      else if op = "ori".toList then write (or32 arg1_val imm)
      else if op = "xori".toList then write (xor32 arg1_val imm)
      else if op = "slti".toList then write (if arg1_val < imm then 1 else 0)
      else some m
    | none => none
  | _, _, _ => none

/-- The body of `lw`: the four bytes from `address` are accumulated into
`word`, which is written to `reg1`. -/
def step_lw (m : Machine) (reg1 address : Int) : Option Machine :=
  match ht_get m.memory address, ht_get m.memory (add32 address 1),
        ht_get m.memory (add32 address 2), ht_get m.memory (add32 address 3) with
  | some b0, some b1, some b2, some b3 =>
    let word := 0
    let word := add32 word b0
    let word := add32 word (shl32 b1 8)
    let word := add32 word (shl32 b2 16)
    let word := add32 word (shl32 b3 24)
    (reg_write m.registers reg1 word).map (fun regs => { m with registers := regs })
  | _, _, _, _ => none

/-- The body of `lb`: the byte at `address`, sign-extended by `(byte << 24) >> 24`. -/
def step_lb (m : Machine) (reg1 address : Int) : Option Machine :=
  match ht_get m.memory address with
  | some byte =>
    (reg_write m.registers reg1 (sar32 (shl32 byte 24) 24)).map
      (fun regs => { m with registers := regs })
  | none => none

/-- The body of `sw`: the four bytes of `registers->r[reg1]` are stored from
`address` on, least significant first. -/
def step_sw (m : Machine) (reg1 address : Int) : Option Machine :=
  match reg_read m.registers reg1 with
  | some word =>
    match ht_add m.memory address (and32 word 255) with
    | some t1 =>
      match ht_add t1 (add32 address 1) (and32 (sar32 word 8) 255) with
      | some t2 =>
        match ht_add t2 (add32 address 2) (and32 (sar32 word 16) 255) with
        | some t3 =>
          match ht_add t3 (add32 address 3) (and32 (sar32 word 24) 255) with
          | some t4 => some { m with memory := t4 }
          | none => none
        | none => none
      | none => none
    | none => none
  | none => none

/-- The body of `sb`: the low byte of `registers->r[reg2]`, the base register,
is stored at `address`. -/
def step_sb (m : Machine) (reg2 address : Int) : Option Machine :=
  match reg_read m.registers reg2 with
  | some base =>
    (ht_add m.memory address (and32 base 255)).map (fun t => { m with memory := t })
  | none => none

/-- The `MEM_TYPE` branch of `step`: a register token, an offset up to `(`, a
base register token up to `)`; the address is base plus offset. -/
def step_mem_type (m : Machine) (op reduced_ins : List Char)
    (behind : Option (List Char)) : Option Machine :=
  let p1 := strsep (some reduced_ins) ','
  let p2 := strsep p1.2 '('
  let p3 := strsep p2.2 ')'
  match atoi_after_x p1.1 p1.2 behind, p2.1, atoi_after_x p3.1 p3.2 behind with
  | some reg1, some offset_str, some reg2 =>
    let offset := get_immediate offset_str
    match reg_read m.registers reg2 with
    | some base =>
      let address := add32 base offset
      if op = "lw".toList then step_lw m reg1 address
      else if op = "lb".toList then step_lb m reg1 address
      else if op = "sw".toList then step_sw m reg1 address
      else if op = "sb".toList then step_sb m reg2 address
      else some m
    | none => none
  | _, _, _ => none

/-- The `U_TYPE` branch of `step`: a register token and an immediate; the
destination receives `imm << 12`. -/
def step_u_type (m : Machine) (reduced_ins : List Char)
    (behind : Option (List Char)) : Option Machine :=
  let p1 := strsep (some reduced_ins) ','
  match atoi_after_x p1.1 p1.2 behind, p1.2 with
  | some store_reg, some imm_str =>
    let imm := get_immediate imm_str
    (reg_write m.registers store_reg (shl32 imm 12)).map
      (fun regs => { m with registers := regs })
  | _, _ => none

/-- The last statement of `step`: `registers->r[0] = 0`. -/
def clear_x0 (m : Machine) : Machine :=
  { m with registers := set_reg m.registers 0 0 }

/-- Function `step` on a line that sits in a buffer of the caller, `beyond`
being the string that this buffer holds after the terminator of the line
(`none` when the buffer ends there). The mnemonic is the text before the first
space; an unknown mnemonic returns at once, otherwise the spaces are removed
from the rest of the line (which must exist), the branch of the type runs on
the buffer that `remove_spaces` left, and register 0 is cleared. -/
def step_in_buffer (m : Machine) (instruction : List Char) (beyond : Option (List Char)) :
    Option Machine :=
  let p := strsep (some instruction) ' '
  match p.1 with
  | none => none
  | some op =>
    let op_type := get_op_type op
    if op_type = UNKNOWN_TYPE then some m
    else
      match p.2 with
      | none => none
      | some instruction =>
        let reduced_ins := remove_spaces instruction
        let behind := left_behind instruction beyond
        let after :=
          if op_type = R_TYPE then step_r_type m op reduced_ins behind
          else if op_type = I_TYPE then step_i_type m op reduced_ins behind
          else if op_type = MEM_TYPE then step_mem_type m op reduced_ins behind
          else if op_type = U_TYPE then step_u_type m reduced_ins behind
          else some m
        after.map clear_x0

/-- Function `step` on a line whose buffer ends at its terminator. -/
def step (m : Machine) (instruction : List Char) : Option Machine :=
  step_in_buffer m instruction none

/-- A run: the lines are given to `step` one after the other. -/
def run (m : Machine) : List (List Char) → Option Machine
  | [] => some m
  | line :: rest =>
    match step m line with
    | some m1 => run m1 rest
    | none => none

/-- A run of `step` calls on lines that sit in buffers: each call comes with
its line and with the string that the buffer holds after the terminator of the
line (`none` when the buffer ends there). -/
def run_in_buffers (m : Machine) : List (List Char × Option (List Char)) → Option Machine
  | [] => some m
  | call :: rest =>
    match step_in_buffer m call.1 call.2 with
    | some m1 => run_in_buffers m1 rest
    | none => none

/-- The register file with all 32 registers zero. -/
def zero_registers : registers_t := { r := fun _ => 0 }

/-! ## Instruction text and state predicates used in the statements -/

/-- The register token `x<n>` with `n` in decimal. -/
def reg_text (n : Fin 32) : List Char := 'x' :: Nat.toDigits 10 n.val

/-- The line `<op> x<rd>,x<rs1>,x<rs2>`. -/
def r_text (op : List Char) (rd rs1 rs2 : Fin 32) : List Char :=
  op ++ ' ' :: (reg_text rd ++ ',' :: (reg_text rs1 ++ ',' :: reg_text rs2))

/-- The line `<op> x<rd>,x<rs1>,<imm>`. -/
def i_text (op : List Char) (rd rs1 : Fin 32) (imm : List Char) : List Char :=
  op ++ ' ' :: (reg_text rd ++ ',' :: (reg_text rs1 ++ ',' :: imm))

/-- The line `<op> x<r1>,<off>(x<r2>)`. -/
def mem_text (op : List Char) (r1 : Fin 32) (off : List Char) (r2 : Fin 32) : List Char :=
  op ++ ' ' :: (reg_text r1 ++ ',' :: (off ++ '(' :: (reg_text r2 ++ [')'])))

/-- The line `lui x<rd>,<imm>`. -/
def u_text (rd : Fin 32) (imm : List Char) : List Char :=
  "lui".toList ++ ' ' :: (reg_text rd ++ ',' :: imm)

/-- The value `step` gives to an immediate or offset token: it is read by
`get_immediate` once the spaces are removed. -/
def imm_value (tok : List Char) : Int := get_immediate (remove_spaces tok)

/-- A register file whose 32 registers hold `int` values. -/
def registers_ok (registers : registers_t) : Prop := ∀ i, isInt32 (registers.r i)

/-- A memory as `init` creates it: 256 buckets; the chains are arbitrary. -/
def memory_ok (table : hashtable) : Prop :=
  table.num_buckets = 256 ∧ table.buckets.length = 256

instance (table : hashtable) : Decidable (memory_ok table) := by
  unfold memory_ok; infer_instance

/-- The key has a bucket in the table: `hash` returns an index inside the
array of buckets. -/
def has_bucket (table : hashtable) (key : Int) : Prop :=
  ∃ index list, hash key (ofU32 table.num_buckets) = some index ∧
    bucket_at table.buckets index = some list

/-- The mnemonic of a line: the text before the first space. -/
def mnemonic (line : List Char) : List Char := line.takeWhile (fun c => c != ' ')

/-- The 19 supported mnemonics: the four tables of `get_op_type`. -/
def supported_mnemonics : List (List Char) :=
  r_type_op ++ i_type_op ++ mem_type_op ++ u_type_op

/-- A store with a positive bucket count: `num_buckets` is a positive `int`
and counts the buckets of the array. -/
def store_ok (table : hashtable) : Prop :=
  0 < table.num_buckets ∧ table.num_buckets < 2147483648 ∧
    table.buckets.length = table.num_buckets

/-- A sequence of `ht_add` calls, given as (address, value) pairs. -/
def ht_add_all (table : hashtable) : List (Int × Int) → Option hashtable
  | [] => some table
  | kv :: rest =>
    match ht_add table kv.1 kv.2 with
    | some t => ht_add_all t rest
    | none => none

/-- The number of distinct addresses in a sequence of `ht_add` calls, the
addresses being compared as 32-bit values (as `ll_add` compares keys). -/
def distinct_addresses (kvs : List (Int × Int)) : Nat :=
  ((kvs.map (fun kv => toU32 kv.1)).toFinset).card

/-- The keys of a chain. -/
def ll_keys (list : linkedlist) : List Nat := list.first.map (fun node => node.key)

/-- Invariant of a table filled by `ht_add` only: after at most `c` calls that
used the addresses `seen`, the size is the number of these addresses, no
counter exceeds `c`, and a chain holds an address exactly when it was used. -/
def counted (table : hashtable) (seen : Finset Nat) (c : Nat) : Prop :=
  store_ok table ∧ table.size = seen.card ∧ table.size ≤ c ∧
  (∀ l ∈ table.buckets, l.size ≤ c) ∧
  ∀ k i l, isInt32 k → hash k (ofU32 table.num_buckets) = some i →
    bucket_at table.buckets i = some l → (toU32 k ∈ ll_keys l ↔ toU32 k ∈ seen)

/-- The machine after `addi x1,x0,255` and `sb x5,0(x1)` from the initial
state: the byte `0xff` is stored at address 255. -/
def machine_with_ff : Machine :=
  (run (init zero_registers) ["addi x1,x0,255".toList, "sb x5,0(x1)".toList]).getD
    (init zero_registers)

/-- A machine with `x1 = -8` and every other register 35, on a new memory. -/
def machine_shift : Machine :=
  { registers := { r := fun i => if i = 1 then -8 else 35 }, memory := ht_init 256 }

/-- A machine with `x1 = 0x1234` and every other register 99, on a new memory. -/
def machine_sb : Machine :=
  { registers := { r := fun i => if i = 1 then 4660 else 99 }, memory := ht_init 256 }

/-- Every value the table holds is a byte. -/
def bytes_only (table : hashtable) : Prop :=
  ∀ l ∈ table.buckets, ∀ node ∈ l.first, 0 ≤ node.value ∧ node.value ≤ 255

/-- The states reachable from `init` by a sequence of `step` calls that
return, whatever the lines and whatever the buffers hold after them. -/
def reachable (m : Machine) : Prop :=
  ∃ registers calls, run_in_buffers (init registers) calls = some m

/-- The word of `lw` as the specification composes it from the four bytes:
`byte0 | (byte1 << 8) | (byte2 << 16) | (byte3 << 24)` on the integers, taken
as a 32-bit signed value. -/
def lw_spec_word (byte0 byte1 byte2 byte3 : Int) : Int :=
  wrap32 (Int.lor (Int.lor (Int.lor byte0 (byte1 * 2 ^ 8)) (byte2 * 2 ^ 16)) (byte3 * 2 ^ 24))

/-- The hexadecimal digits `0`-`9`, `a`-`f`, `A`-`F`. -/
def is_hex_digit (c : Char) : Bool :=
  (48 ≤ c.toNat && c.toNat ≤ 57) || (97 ≤ c.toNat && c.toNat ≤ 102) ||
    (65 ≤ c.toNat && c.toNat ≤ 70)

/-- The value of a hexadecimal digit. -/
def hex_digit_value (c : Char) : Nat :=
  if c.toNat ≤ 57 then c.toNat - 48
  else if 97 ≤ c.toNat then c.toNat - 87
  else c.toNat - 55

/-- The hexadecimal value of a string of hexadecimal digits, as the
specification reads it: most significant digit first. -/
def spec_hex_value (s : List Char) : Nat :=
  s.foldl (fun acc c => acc * 16 + hex_digit_value c) 0

/-! ## 32-bit arithmetic -/

theorem wrap32_of_isInt32 {x : Int} (h : isInt32 x) : wrap32 x = x := by
  unfold isInt32 at h
  unfold wrap32 ofU32 toU32
  split <;> omega

theorem isInt32_ofU32 (n : Nat) : isInt32 (ofU32 n) := by
  unfold isInt32 ofU32
  split <;> omega

theorem isInt32_wrap32 (x : Int) : isInt32 (wrap32 x) := isInt32_ofU32 _

theorem isInt32_add32 (a b : Int) : isInt32 (add32 a b) := isInt32_ofU32 _

theorem toU32_inj {a b : Int} (ha : isInt32 a) (hb : isInt32 b) (h : toU32 a = toU32 b) : a = b := by
  unfold isInt32 at ha hb
  unfold toU32 at h
  omega

theorem and32_255 (x : Int) : and32 x 255 = x % 256 := by
  unfold and32
  have h1 : toU32 255 = 2 ^ 8 - 1 := by decide
  rw [h1, Nat.and_pow_two_sub_one_eq_mod]
  unfold ofU32 toU32
  split <;> omega

theorem sar32_eq (x : Int) (k : Nat) : sar32 x k = x / (2 ^ k : Nat) := by
  unfold sar32
  exact Int.shiftRight_eq_div_pow x k

theorem shl32_eq_wrap32_8 (a : Int) : shl32 a 8 = wrap32 (a * 256) := by
  unfold shl32
  rw [Nat.shiftLeft_eq]
  unfold wrap32 ofU32 toU32
  norm_num
  split_ifs <;> omega

theorem shl32_eq_wrap32_16 (a : Int) : shl32 a 16 = wrap32 (a * 65536) := by
  unfold shl32
  rw [Nat.shiftLeft_eq]
  unfold wrap32 ofU32 toU32
  norm_num
  split_ifs <;> omega

theorem shl32_eq_wrap32_24 (a : Int) : shl32 a 24 = wrap32 (a * 16777216) := by
  unfold shl32
  rw [Nat.shiftLeft_eq]
  unfold wrap32 ofU32 toU32
  norm_num
  split_ifs <;> omega

theorem wrap32_add_left (x y : Int) : wrap32 (wrap32 x + y) = wrap32 (x + y) := by
  unfold wrap32 ofU32 toU32
  split_ifs <;> omega

theorem wrap32_add_right (x y : Int) : wrap32 (x + wrap32 y) = wrap32 (x + y) := by
  unfold wrap32 ofU32 toU32
  split_ifs <;> omega

theorem word_of_bytes (w : Int) (h : isInt32 w) :
    add32 (add32 (add32 (add32 0 (and32 w 255)) (shl32 (and32 (sar32 w 8) 255) 8))
      (shl32 (and32 (sar32 w 16) 255) 16)) (shl32 (and32 (sar32 w 24) 255) 24) = w := by
  simp only [and32_255, sar32_eq, shl32_eq_wrap32_8, shl32_eq_wrap32_16, shl32_eq_wrap32_24,
    add32, wrap32_add_left, wrap32_add_right]
  have e : (0 : Int) + w % 256 + w / ((2 ^ 8 : Nat) : Int) % 256 * 256
      + w / ((2 ^ 16 : Nat) : Int) % 256 * 65536
      + w / ((2 ^ 24 : Nat) : Int) % 256 * 16777216 = w % 4294967296 := by
    norm_num
    omega
  rw [e]
  unfold isInt32 at h
  unfold wrap32 ofU32 toU32
  split_ifs <;> omega

/-! ## Chains -/

theorem ll_get_loop_add_same (k : Nat) (v : Int) (nodes : List linkedlist_node) :
    ∀ nodes1, ll_add_loop k v nodes = some nodes1 → ll_get_loop k nodes1 = v := by
  induction nodes with
  | nil => intro nodes1 h; simp [ll_add_loop] at h
  | cons node next ih =>
    intro nodes1 h
    by_cases hk : node.key = k
    · simp [ll_add_loop, hk] at h
      subst h
      simp [ll_get_loop, hk]
    · simp only [ll_add_loop, hk, if_false, Option.map_eq_some'] at h
      obtain ⟨rest, hrest, rfl⟩ := h
      simp [ll_get_loop, hk, ih rest hrest]

theorem ll_get_loop_add_other (k k1 : Nat) (v : Int) (hne : k1 ≠ k)
    (nodes : List linkedlist_node) :
    ∀ nodes1, ll_add_loop k v nodes = some nodes1 →
      ll_get_loop k1 nodes1 = ll_get_loop k1 nodes := by
  induction nodes with
  | nil => intro nodes1 h; simp [ll_add_loop] at h
  | cons node next ih =>
    intro nodes1 h
    by_cases hk : node.key = k
    · simp [ll_add_loop, hk] at h
      subst h
      have : ¬ k = k1 := fun e => hne e.symm
      simp [ll_get_loop, hk, this]
    · simp only [ll_add_loop, hk, if_false, Option.map_eq_some'] at h
      obtain ⟨rest, hrest, rfl⟩ := h
      simp [ll_get_loop, ih rest hrest]

theorem ll_add_loop_again (k : Nat) (v v2 : Int) (nodes : List linkedlist_node) :
    ∀ nodes1, ll_add_loop k v nodes = some nodes1 → (ll_add_loop k v2 nodes1).isSome := by
  induction nodes with
  | nil => intro nodes1 h; simp [ll_add_loop] at h
  | cons node next ih =>
    intro nodes1 h
    by_cases hk : node.key = k
    · simp [ll_add_loop, hk] at h
      subst h
      simp [ll_add_loop, hk]
    · simp only [ll_add_loop, hk, if_false, Option.map_eq_some'] at h
      obtain ⟨rest, hrest, rfl⟩ := h
      have := ih rest hrest
      simp [ll_add_loop, hk, this]

theorem ll_get_ll_add_same (l : linkedlist) (k v : Int) : ll_get (ll_add l k v) k = v := by
  unfold ll_get ll_add
  cases h : ll_add_loop (toU32 k) v l.first with
  | none => simp [ll_get_loop]
  | some nodes => exact ll_get_loop_add_same _ _ _ _ h

theorem ll_get_ll_add_other (l : linkedlist) (k k1 v : Int) (hne : toU32 k1 ≠ toU32 k) :
    ll_get (ll_add l k v) k1 = ll_get l k1 := by
  unfold ll_get ll_add
  cases h : ll_add_loop (toU32 k) v l.first with
  | none =>
    have : ¬ toU32 k = toU32 k1 := fun e => hne e.symm
    simp [ll_get_loop, this]
  | some nodes => exact ll_get_loop_add_other _ _ _ hne _ _ h

theorem ll_add_loop_after_ll_add (l : linkedlist) (k v v2 : Int) :
    (ll_add_loop (toU32 k) v2 (ll_add l k v).first).isSome := by
  unfold ll_add
  cases h : ll_add_loop (toU32 k) v l.first with
  | none => simp [ll_add_loop]
  | some nodes => exact ll_add_loop_again _ _ _ _ _ h

theorem ll_size_ll_add_again (l : linkedlist) (k v v2 : Int) :
    ll_size (ll_add (ll_add l k v) k v2) = ll_size (ll_add l k v) := by
  have h := ll_add_loop_after_ll_add l k v v2
  obtain ⟨nodes, hn⟩ := Option.isSome_iff_exists.mp h
  generalize ll_add l k v = l1 at hn ⊢
  simp [ll_add, hn, ll_size]

/-! ## Buckets -/

theorem bucket_at_set_same (buckets : List linkedlist) (i : Int) (l l1 : linkedlist)
    (h : bucket_at buckets i = some l) :
    bucket_at (buckets.set i.toNat l1) i = some l1 := by
  unfold bucket_at at h ⊢
  split at h
  · rename_i hi
    simp only [hi, if_true]
    have hlt : i.toNat < buckets.length := by
      rcases List.getElem?_eq_some_iff.mp h with ⟨hlt, _⟩
      exact hlt
    simp [List.getElem?_set_self, hlt]
  · simp at h

theorem bucket_at_set_other (buckets : List linkedlist) (i j : Int) (l1 : linkedlist)
    (hi : 0 ≤ i) (hne : j ≠ i) :
    bucket_at (buckets.set i.toNat l1) j = bucket_at buckets j := by
  unfold bucket_at
  split
  · rename_i hj
    have : i.toNat ≠ j.toNat := by omega
    simp [List.getElem?_set_ne this]
  · rfl

theorem ht_add_eq (t : hashtable) (k v i : Int) (l : linkedlist)
    (hh : hash k (ofU32 t.num_buckets) = some i) (hb : bucket_at t.buckets i = some l) :
    ht_add t k v = some { t with
      buckets := t.buckets.set i.toNat (ll_add l k v),
      size := if ll_size (ll_add l k v) > ll_size l then (t.size + 1) % 4294967296
              else t.size } := by
  simp [ht_add, hh, hb]

theorem ht_add_some_iff (t : hashtable) (k v : Int) :
    (ht_add t k v).isSome ↔ has_bucket t k := by
  unfold has_bucket
  constructor
  · intro h
    unfold ht_add at h
    cases hh : hash k (ofU32 t.num_buckets) with
    | none => simp [hh] at h
    | some i =>
      cases hb : bucket_at t.buckets i with
      | none => simp [hh, hb] at h
      | some l => exact ⟨i, l, rfl, hb⟩
  · rintro ⟨i, l, hh, hb⟩
    rw [ht_add_eq t k v i l hh hb]
    rfl

theorem ht_add_inv (t t1 : hashtable) (k v : Int) (h : ht_add t k v = some t1) :
    ∃ i l, hash k (ofU32 t.num_buckets) = some i ∧ bucket_at t.buckets i = some l ∧ 0 ≤ i ∧
      t1 = { t with
        buckets := t.buckets.set i.toNat (ll_add l k v),
        size := if ll_size (ll_add l k v) > ll_size l then (t.size + 1) % 4294967296
                else t.size } := by
  have hs : (ht_add t k v).isSome := by simp [h]
  obtain ⟨i, l, hh, hb⟩ := (ht_add_some_iff t k v).mp hs
  refine ⟨i, l, hh, hb, ?_, ?_⟩
  · unfold bucket_at at hb
    by_contra hneg
    simp [hneg] at hb
  · rw [ht_add_eq t k v i l hh hb] at h
    exact (Option.some.inj h).symm

theorem ht_get_ht_add_same (t t1 : hashtable) (k v : Int) (h : ht_add t k v = some t1) :
    ht_get t1 k = some v := by
  obtain ⟨i, l, hh, hb, hi, rfl⟩ := ht_add_inv t t1 k v h
  simp [ht_get, hh, bucket_at_set_same _ _ _ _ hb, ll_get_ll_add_same]

theorem ht_get_ht_add_other (t t1 : hashtable) (k k1 v : Int) (h : ht_add t k v = some t1)
    (hne : toU32 k1 ≠ toU32 k) : ht_get t1 k1 = ht_get t k1 := by
  obtain ⟨i, l, hh, hb, hi, rfl⟩ := ht_add_inv t t1 k v h
  unfold ht_get
  simp only
  cases hh1 : hash k1 (ofU32 t.num_buckets) with
  | none => rfl
  | some j =>
    simp only
    by_cases hji : j = i
    · subst hji
      rw [bucket_at_set_same _ _ _ _ hb, hb]
      simp [ll_get_ll_add_other _ _ _ _ hne]
    · rw [bucket_at_set_other _ _ _ _ hi hji]

theorem ht_size_ht_add_again (t t1 t2 : hashtable) (k v v2 : Int)
    (h1 : ht_add t k v = some t1) (h2 : ht_add t1 k v2 = some t2) :
    ht_size t2 = ht_size t1 := by
  obtain ⟨i, l, hh, hb, hi, rfl⟩ := ht_add_inv t t1 k v h1
  have hb1 := bucket_at_set_same t.buckets i l (ll_add l k v) hb
  have e := ht_add_eq { t with
      buckets := t.buckets.set i.toNat (ll_add l k v),
      size := if ll_size (ll_add l k v) > ll_size l then (t.size + 1) % 4294967296
              else t.size } k v2 i (ll_add l k v) hh hb1
  rw [e] at h2
  have := Option.some.inj h2
  subst this
  simp [ht_size, ll_size_ll_add_again]

theorem ht_add_num_buckets (t t1 : hashtable) (k v : Int) (h : ht_add t k v = some t1) :
    t1.num_buckets = t.num_buckets ∧ t1.buckets.length = t.buckets.length := by
  obtain ⟨i, l, hh, hb, hi, rfl⟩ := ht_add_inv t t1 k v h
  simp

/-! ## The hash of an address -/

theorem hash_of_pos (key n : Int) (hk : isInt32 key) (hmin : key ≠ -2147483648) (hn : 0 < n) :
    ∃ i, hash key n = some i ∧ 0 ≤ i ∧ i < n := by
  unfold isInt32 at hk
  unfold hash
  by_cases hpos : key > 0
  · have h1 : ¬ (n = 0 ∨ (key = -2147483648 ∧ n = -1)) := by omega
    simp only [hpos, if_true, h1, if_false]
    refine ⟨_, rfl, ?_, ?_⟩
    · rw [Int.tmod_eq_emod (by omega) (by omega)]
      exact Int.emod_nonneg _ (by omega)
    · rw [Int.tmod_eq_emod (by omega) (by omega)]
      exact Int.emod_lt_of_pos _ hn
  · have hw : wrap32 (-key) = -key := wrap32_of_isInt32 (by unfold isInt32; omega)
    have h1 : ¬ (n = 0 ∨ (-key = -2147483648 ∧ n = -1)) := by omega
    simp only [hpos, if_false, hw, h1]
    refine ⟨_, rfl, ?_, ?_⟩
    · rw [Int.tmod_eq_emod (by omega) (by omega)]
      exact Int.emod_nonneg _ (by omega)
    · rw [Int.tmod_eq_emod (by omega) (by omega)]
      exact Int.emod_lt_of_pos _ hn

theorem hash_256 (key : Int) (hk : isInt32 key) :
    ∃ i, hash key 256 = some i ∧ 0 ≤ i ∧ i < 256 := by
  by_cases hmin : key = -2147483648
  · subst hmin
    exact ⟨0, by decide, by decide, by decide⟩
  · exact hash_of_pos key 256 hk hmin (by decide)

theorem bucket_at_of_lt (buckets : List linkedlist) (i : Int) (h0 : 0 ≤ i)
    (hlt : i < buckets.length) : ∃ l, bucket_at buckets i = some l := by
  have hl : i.toNat < buckets.length := by omega
  refine ⟨buckets[i.toNat], ?_⟩
  simp [bucket_at, h0, List.getElem?_eq_getElem hl]

theorem memory_ok_has_bucket (t : hashtable) (h : memory_ok t) (k : Int) (hk : isInt32 k) :
    has_bucket t k := by
  obtain ⟨hn, hlen⟩ := h
  obtain ⟨i, hi, h0, h256⟩ := hash_256 k hk
  obtain ⟨l, hl⟩ := bucket_at_of_lt t.buckets i h0 (by omega)
  refine ⟨i, l, ?_, hl⟩
  rw [hn]
  exact hi

theorem memory_ok_init : memory_ok (ht_init 256) := by
  have h : toU32 256 = 256 := by decide
  exact ⟨h, List.length_replicate _ _⟩

theorem memory_ok_ht_add (t : hashtable) (h : memory_ok t) (k v : Int) (hk : isInt32 k) :
    ∃ t1, ht_add t k v = some t1 ∧ memory_ok t1 := by
  have hs := (ht_add_some_iff t k v).mpr (memory_ok_has_bucket t h k hk)
  obtain ⟨t1, ht1⟩ := Option.isSome_iff_exists.mp hs
  refine ⟨t1, ht1, ?_⟩
  obtain ⟨h1, h2⟩ := ht_add_num_buckets t t1 k v ht1
  exact ⟨by rw [h1]; exact h.1, by rw [h2]; exact h.2⟩

theorem memory_ok_ht_get (t : hashtable) (h : memory_ok t) (k : Int) (hk : isInt32 k) :
    ∃ b, ht_get t k = some b := by
  obtain ⟨i, l, hh, hb⟩ := memory_ok_has_bucket t h k hk
  exact ⟨ll_get l k, by simp [ht_get, hh, hb]⟩

/-! ## Tokens -/

theorem strsep_found (d : Char) (pre post : List Char) (h : d ∉ pre) :
    strsep (some (pre ++ d :: post)) d = (some pre, some post) := by
  induction pre with
  | nil => simp [strsep]
  | cons c cs ih =>
    have hc : c ≠ d := fun e => h (by simp [e])
    have hcs : d ∉ cs := fun e => h (by simp [e])
    have := ih hcs
    have hb : (c != d) = true := by simpa using hc
    simp only [strsep, Prod.mk.injEq, Option.some.injEq] at this ⊢
    simp only [List.cons_append, List.takeWhile_cons, List.dropWhile_cons, hb, if_true]
    exact ⟨by rw [this.1], this.2⟩

theorem strsep_not_found (d : Char) (s : List Char) (h : d ∉ s) :
    strsep (some s) d = (some s, none) := by
  induction s with
  | nil => simp [strsep]
  | cons c cs ih =>
    have hc : c ≠ d := fun e => h (by simp [e])
    have hcs : d ∉ cs := fun e => h (by simp [e])
    have := ih hcs
    have hb : (c != d) = true := by simpa using hc
    simp only [strsep, Prod.mk.injEq, Option.some.injEq] at this ⊢
    simp only [List.cons_append, List.takeWhile_cons, List.dropWhile_cons, hb, if_true]
    exact ⟨by rw [this.1], this.2⟩

theorem reg_text_plain (n : Fin 32) :
    ' ' ∉ reg_text n ∧ ',' ∉ reg_text n ∧ ')' ∉ reg_text n := by
  revert n; decide

theorem atoi_reg_text (n : Fin 32) (rest behind : Option (List Char)) :
    atoi_after_x (some (reg_text n)) rest behind = some (n.val : Int) := by
  have : ∀ n : Fin 32, atoi (Nat.toDigits 10 n.val) = (n.val : Int) := by decide
  simp [atoi_after_x, skip_first, reg_text, this]

theorem remove_spaces_append (a b : List Char) :
    remove_spaces (a ++ b) = remove_spaces a ++ remove_spaces b := by
  simp [remove_spaces]

theorem remove_spaces_cons_of_ne (c : Char) (s : List Char) (h : c ≠ ' ') :
    remove_spaces (c :: s) = c :: remove_spaces s := by
  simp [remove_spaces, List.filter_cons, h]

theorem remove_spaces_of_not_mem (s : List Char) (h : ' ' ∉ s) : remove_spaces s = s := by
  unfold remove_spaces
  rw [List.filter_eq_self]
  intro c hc
  have : c ≠ ' ' := fun e => h (e ▸ hc)
  simpa using this

theorem remove_spaces_reg_text (n : Fin 32) : remove_spaces (reg_text n) = reg_text n :=
  remove_spaces_of_not_mem _ (reg_text_plain n).1

theorem not_mem_remove_spaces (c : Char) (s : List Char) (h : c ∉ s) :
    c ∉ remove_spaces s := by
  unfold remove_spaces
  intro hc
  exact h (List.mem_filter.mp hc).1

theorem reg_read_val (regs : registers_t) (n : Fin 32) :
    reg_read regs (n.val : Int) = some (regs.r n) := by
  have h : (0 : Int) ≤ (n.val : Int) ∧ (n.val : Int) < 32 := by omega
  simp [reg_read, h]

theorem reg_write_val (regs : registers_t) (n : Fin 32) (v : Int) :
    reg_write regs (n.val : Int) v = some (set_reg regs n v) := by
  have h : (0 : Int) ≤ (n.val : Int) ∧ (n.val : Int) < 32 := by omega
  simp [reg_write, h]

/-! ## Decoding a line -/

theorem r_type_op_facts : ∀ op ∈ r_type_op, ' ' ∉ op ∧ get_op_type op = R_TYPE := by decide

theorem i_type_op_facts : ∀ op ∈ i_type_op, ' ' ∉ op ∧ get_op_type op = I_TYPE := by decide

theorem mem_type_op_facts : ∀ op ∈ mem_type_op, ' ' ∉ op ∧ get_op_type op = MEM_TYPE := by
  decide

theorem u_type_op_facts : ∀ op ∈ u_type_op, ' ' ∉ op ∧ get_op_type op = U_TYPE := by decide

theorem step_r_line (m : Machine) (op rest : List Char) (hop : op ∈ r_type_op) :
    step m (op ++ ' ' :: rest)
      = (step_r_type m op (remove_spaces rest) (left_behind rest none)).map clear_x0 := by
  obtain ⟨hsp, hty⟩ := r_type_op_facts op hop
  unfold step step_in_buffer
  rw [strsep_found _ _ _ hsp]
  simp [hty, R_TYPE, UNKNOWN_TYPE]

theorem step_i_line (m : Machine) (op rest : List Char) (hop : op ∈ i_type_op) :
    step m (op ++ ' ' :: rest)
      = (step_i_type m op (remove_spaces rest) (left_behind rest none)).map clear_x0 := by
  obtain ⟨hsp, hty⟩ := i_type_op_facts op hop
  unfold step step_in_buffer
  rw [strsep_found _ _ _ hsp]
  simp [hty, R_TYPE, I_TYPE, UNKNOWN_TYPE]

theorem step_mem_line (m : Machine) (op rest : List Char) (hop : op ∈ mem_type_op) :
    step m (op ++ ' ' :: rest)
      = (step_mem_type m op (remove_spaces rest) (left_behind rest none)).map clear_x0 := by
  obtain ⟨hsp, hty⟩ := mem_type_op_facts op hop
  unfold step step_in_buffer
  rw [strsep_found _ _ _ hsp]
  simp [hty, R_TYPE, I_TYPE, MEM_TYPE, UNKNOWN_TYPE]

theorem step_u_line (m : Machine) (op rest : List Char) (hop : op ∈ u_type_op) :
    step m (op ++ ' ' :: rest)
      = (step_u_type m (remove_spaces rest) (left_behind rest none)).map clear_x0 := by
  obtain ⟨hsp, hty⟩ := u_type_op_facts op hop
  unfold step step_in_buffer
  rw [strsep_found _ _ _ hsp]
  simp [hty, R_TYPE, I_TYPE, MEM_TYPE, U_TYPE, UNKNOWN_TYPE]

theorem remove_spaces_r_operands (rd rs1 rs2 : Fin 32) :
    remove_spaces (reg_text rd ++ ',' :: (reg_text rs1 ++ ',' :: reg_text rs2))
      = reg_text rd ++ ',' :: (reg_text rs1 ++ ',' :: reg_text rs2) := by
  simp [remove_spaces_append, remove_spaces_cons_of_ne, remove_spaces_reg_text]

theorem remove_spaces_i_operands (rd rs1 : Fin 32) (imm : List Char) :
    remove_spaces (reg_text rd ++ ',' :: (reg_text rs1 ++ ',' :: imm))
      = reg_text rd ++ ',' :: (reg_text rs1 ++ ',' :: remove_spaces imm) := by
  simp [remove_spaces_append, remove_spaces_cons_of_ne, remove_spaces_reg_text]

theorem remove_spaces_mem_operands (r1 r2 : Fin 32) (off : List Char) :
    remove_spaces (reg_text r1 ++ ',' :: (off ++ '(' :: (reg_text r2 ++ [')'])))
      = reg_text r1 ++ ',' :: (remove_spaces off ++ '(' :: (reg_text r2 ++ [')'])) := by
  simp [remove_spaces_append, remove_spaces_cons_of_ne, remove_spaces_reg_text]
  simp [remove_spaces]

theorem remove_spaces_u_operands (rd : Fin 32) (imm : List Char) :
    remove_spaces (reg_text rd ++ ',' :: imm) = reg_text rd ++ ',' :: remove_spaces imm := by
  simp [remove_spaces_append, remove_spaces_cons_of_ne, remove_spaces_reg_text]

/-- The `R_TYPE` branch on well-formed operands: the three tokens are the
registers `rd`, `rs1`, `rs2`. -/
theorem step_r_type_operands (m : Machine) (op : List Char) (rd rs1 rs2 : Fin 32)
    (behind : Option (List Char)) :
    step_r_type m op (reg_text rd ++ ',' :: (reg_text rs1 ++ ',' :: reg_text rs2)) behind =
      (let a := m.registers.r rs1
       let b := m.registers.r rs2
       let write := fun (v : Int) => some { m with registers := set_reg m.registers rd v }
       if op = "add".toList then write (add32 a b)
       else if op = "sub".toList then write (sub32 a b)
       else if op = "and".toList then write (and32 a b)
       else if op = "or".toList then write (or32 a b)
       else if op = "xor".toList then write (xor32 a b)
       else if op = "nor".toList then write (not32 (or32 a b))
       else if op = "slt".toList then write (if a < b then 1 else 0)
       else if op = "sll".toList then write (shl32 a (toU32 (and32 31 b)))
       else if op = "sra".toList then write (sar32 a (toU32 (and32 31 b)))
       else some m) := by
  unfold step_r_type
  rw [strsep_found _ _ _ (reg_text_plain rd).2.1]
  simp only
  rw [strsep_found _ _ _ (reg_text_plain rs1).2.1]
  simp only
  rw [strsep_not_found _ _ (reg_text_plain rs2).2.1]
  simp only [atoi_reg_text, reg_read_val, reg_write_val, Option.map_some']

/-- The `I_TYPE` branch on well-formed operands. -/
theorem step_i_type_operands (m : Machine) (op : List Char) (rd rs1 : Fin 32)
    (imm : List Char) (behind : Option (List Char)) :
    step_i_type m op (reg_text rd ++ ',' :: (reg_text rs1 ++ ',' :: imm)) behind =
      (let a := m.registers.r rs1
       let i := get_immediate imm
       let write := fun (v : Int) => some { m with registers := set_reg m.registers rd v }
       if op = "addi".toList then write (add32 a i)
       else if op = "andi".toList then write (and32 a i)
       else if op = "ori".toList then write (or32 a i)
       else if op = "xori".toList then write (xor32 a i)
       else if op = "slti".toList then write (if a < i then 1 else 0)
       else some m) := by
  unfold step_i_type
  rw [strsep_found _ _ _ (reg_text_plain rd).2.1]
  simp only
  rw [strsep_found _ _ _ (reg_text_plain rs1).2.1]
  simp only [atoi_reg_text, reg_read_val, reg_write_val, Option.map_some']

/-- The `MEM_TYPE` branch on well-formed operands. -/
theorem step_mem_type_operands (m : Machine) (op : List Char) (r1 r2 : Fin 32)
    (off : List Char) (hoff : '(' ∉ off) (behind : Option (List Char)) :
    step_mem_type m op (reg_text r1 ++ ',' :: (off ++ '(' :: (reg_text r2 ++ [')']))) behind =
      (let address := add32 (m.registers.r r2) (get_immediate off)
       if op = "lw".toList then step_lw m r1.val address
       else if op = "lb".toList then step_lb m r1.val address
       else if op = "sw".toList then step_sw m r1.val address
       else if op = "sb".toList then step_sb m r2.val address
       else some m) := by
  unfold step_mem_type
  rw [strsep_found _ _ _ (reg_text_plain r1).2.1]
  simp only
  rw [strsep_found _ _ _ hoff]
  simp only
  rw [strsep_found _ _ _ (reg_text_plain r2).2.2]
  simp only [atoi_reg_text, reg_read_val]

/-- The `U_TYPE` branch on well-formed operands. -/
theorem step_u_type_operands (m : Machine) (rd : Fin 32) (imm : List Char)
    (behind : Option (List Char)) :
    step_u_type m (reg_text rd ++ ',' :: imm) behind =
      some { m with registers := set_reg m.registers rd (shl32 (get_immediate imm) 12) } := by
  unfold step_u_type
  rw [strsep_found _ _ _ (reg_text_plain rd).2.1]
  simp only [atoi_reg_text, reg_write_val, Option.map_some']

/-! ## Stores and loads -/

theorem toU32_add32 (a i : Int) : toU32 (add32 a i) = ((a + i) % 4294967296).toNat := by
  unfold add32 wrap32 ofU32 toU32
  split_ifs <;> omega

theorem toU32_eq (a : Int) : toU32 a = (a % 4294967296).toNat := rfl

theorem step_sw_text (m : Machine) (rs rb : Fin 32) (off : List Char) (hoff : '(' ∉ off) :
    step m (mem_text "sw".toList rs off rb) =
      (step_sw m rs.val (add32 (m.registers.r rb) (imm_value off))).map clear_x0 := by
  unfold mem_text
  rw [step_mem_line m _ _ (by decide), remove_spaces_mem_operands,
    step_mem_type_operands m _ rs rb _ (not_mem_remove_spaces _ _ hoff)]
  have h1 : ¬ ("sw".toList = "lw".toList) := by decide
  have h2 : ¬ ("sw".toList = "lb".toList) := by decide
  simp only [h1, h2, if_false, if_true, imm_value]

theorem step_lw_text (m : Machine) (rd rb : Fin 32) (off : List Char) (hoff : '(' ∉ off) :
    step m (mem_text "lw".toList rd off rb) =
      (step_lw m rd.val (add32 (m.registers.r rb) (imm_value off))).map clear_x0 := by
  unfold mem_text
  rw [step_mem_line m _ _ (by decide), remove_spaces_mem_operands,
    step_mem_type_operands m _ rd rb _ (not_mem_remove_spaces _ _ hoff)]
  simp only [if_true, imm_value]

theorem step_lb_text (m : Machine) (rd rb : Fin 32) (off : List Char) (hoff : '(' ∉ off) :
    step m (mem_text "lb".toList rd off rb) =
      (step_lb m rd.val (add32 (m.registers.r rb) (imm_value off))).map clear_x0 := by
  unfold mem_text
  rw [step_mem_line m _ _ (by decide), remove_spaces_mem_operands,
    step_mem_type_operands m _ rd rb _ (not_mem_remove_spaces _ _ hoff)]
  have h1 : ¬ ("lb".toList = "lw".toList) := by decide
  simp only [h1, if_false, if_true, imm_value]

theorem step_sb_text (m : Machine) (ra rb : Fin 32) (off : List Char) (hoff : '(' ∉ off) :
    step m (mem_text "sb".toList ra off rb) =
      (step_sb m rb.val (add32 (m.registers.r rb) (imm_value off))).map clear_x0 := by
  unfold mem_text
  rw [step_mem_line m _ _ (by decide), remove_spaces_mem_operands,
    step_mem_type_operands m _ ra rb _ (not_mem_remove_spaces _ _ hoff)]
  have h1 : ¬ ("sb".toList = "lw".toList) := by decide
  have h2 : ¬ ("sb".toList = "lb".toList) := by decide
  have h3 : ¬ ("sb".toList = "sw".toList) := by decide
  simp only [h1, h2, h3, if_false, if_true, imm_value]

/-- The four `ht_add` of `sw` on a memory of 256 buckets: they succeed and the
four bytes can be read back. -/
theorem step_sw_ok (m : Machine) (rs : Fin 32) (a : Int) (hmem : memory_ok m.memory)
    (ha : isInt32 a) :
    ∃ t4, step_sw m rs.val a = some { m with memory := t4 } ∧ memory_ok t4 ∧
      ht_get t4 a = some (and32 (m.registers.r rs) 255) ∧
      ht_get t4 (add32 a 1) = some (and32 (sar32 (m.registers.r rs) 8) 255) ∧
      ht_get t4 (add32 a 2) = some (and32 (sar32 (m.registers.r rs) 16) 255) ∧
      ht_get t4 (add32 a 3) = some (and32 (sar32 (m.registers.r rs) 24) 255) := by
  obtain ⟨t1, e1, ok1⟩ := memory_ok_ht_add m.memory hmem a
    (and32 (m.registers.r rs) 255) ha
  obtain ⟨t2, e2, ok2⟩ := memory_ok_ht_add t1 ok1 (add32 a 1)
    (and32 (sar32 (m.registers.r rs) 8) 255) (isInt32_add32 _ _)
  obtain ⟨t3, e3, ok3⟩ := memory_ok_ht_add t2 ok2 (add32 a 2)
    (and32 (sar32 (m.registers.r rs) 16) 255) (isInt32_add32 _ _)
  obtain ⟨t4, e4, ok4⟩ := memory_ok_ht_add t3 ok3 (add32 a 3)
    (and32 (sar32 (m.registers.r rs) 24) 255) (isInt32_add32 _ _)
  unfold isInt32 at ha
  have d01 : toU32 a ≠ toU32 (add32 a 1) := by rw [toU32_add32, toU32_eq]; omega
  have d02 : toU32 a ≠ toU32 (add32 a 2) := by rw [toU32_add32, toU32_eq]; omega
  have d03 : toU32 a ≠ toU32 (add32 a 3) := by rw [toU32_add32, toU32_eq]; omega
  have d12 : toU32 (add32 a 1) ≠ toU32 (add32 a 2) := by
    rw [toU32_add32, toU32_add32]; omega
  have d13 : toU32 (add32 a 1) ≠ toU32 (add32 a 3) := by
    rw [toU32_add32, toU32_add32]; omega
  have d23 : toU32 (add32 a 2) ≠ toU32 (add32 a 3) := by
    rw [toU32_add32, toU32_add32]; omega
  refine ⟨t4, ?_, ok4, ?_, ?_, ?_, ?_⟩
  · simp [step_sw, reg_read_val, e1, e2, e3, e4]
  · rw [ht_get_ht_add_other t3 t4 _ _ _ e4 d03, ht_get_ht_add_other t2 t3 _ _ _ e3 d02,
      ht_get_ht_add_other t1 t2 _ _ _ e2 d01]
    exact ht_get_ht_add_same _ _ _ _ e1
  · rw [ht_get_ht_add_other t3 t4 _ _ _ e4 d13, ht_get_ht_add_other t2 t3 _ _ _ e3 d12]
    exact ht_get_ht_add_same _ _ _ _ e2
  · rw [ht_get_ht_add_other t3 t4 _ _ _ e4 d23]
    exact ht_get_ht_add_same _ _ _ _ e3
  · exact ht_get_ht_add_same _ _ _ _ e4

theorem set_reg_same (regs : registers_t) (i : Fin 32) (v : Int) : (set_reg regs i v).r i = v := by
  simp [set_reg]

theorem set_reg_other (regs : registers_t) (i j : Fin 32) (v : Int) (h : j ≠ i) :
    (set_reg regs i v).r j = regs.r j := by
  simp [set_reg, h]

theorem step_lw_eq (m : Machine) (rd : Fin 32) (a b0 b1 b2 b3 : Int)
    (g0 : ht_get m.memory a = some b0) (g1 : ht_get m.memory (add32 a 1) = some b1)
    (g2 : ht_get m.memory (add32 a 2) = some b2) (g3 : ht_get m.memory (add32 a 3) = some b3) :
    step_lw m rd.val a = some { m with registers := (set_reg m.registers rd
      (add32 (add32 (add32 (add32 0 b0) (shl32 b1 8)) (shl32 b2 16)) (shl32 b3 24))) } := by
  simp only [step_lw, g0, g1, g2, g3, reg_write_val, Option.map_some']

/-- C1: a `sw` of register `rs` followed by a `lw` into `rd` with the same
offset and base register leaves in `rd` the value `rs` held when `sw` ran: for
every register file of `int` values, every memory as `init` creates it, every
offset token, every `rs`, `rb` and `rd ≠ 0` in 0..31, provided the base
register holds the same value for both instructions (`rb ≠ 0`, or register 0
is already 0). -/
theorem sw_lw_round_trip (m : Machine) (rs rb rd : Fin 32) (off : List Char)
    (hregs : registers_ok m.registers) (hmem : memory_ok m.memory) (hoff : '(' ∉ off)
    (hrd : rd ≠ 0) (hrb : rb ≠ 0 ∨ m.registers.r 0 = 0) :
    ∃ m1 m2, step m (mem_text "sw".toList rs off rb) = some m1 ∧
      step m1 (mem_text "lw".toList rd off rb) = some m2 ∧
      m2.registers.r rd = m.registers.r rs := by
  obtain ⟨t4, hsw, ok4, g0, g1, g2, g3⟩ :=
    step_sw_ok m rs (add32 (m.registers.r rb) (imm_value off)) hmem (isInt32_add32 _ _)
  have hbase : (set_reg m.registers 0 0).r rb = m.registers.r rb := by
    rcases hrb with h | h
    · exact set_reg_other _ _ _ _ h
    · by_cases h0 : rb = 0
      · subst h0; rw [set_reg_same, h]
      · exact set_reg_other _ _ _ _ h0
  have h1 : step m (mem_text "sw".toList rs off rb)
      = some (clear_x0 { m with memory := t4 }) := by
    rw [step_sw_text m rs rb off hoff, hsw]; rfl
  have h2 := step_lw_text (clear_x0 { m with memory := t4 }) rd rb off hoff
  simp only [clear_x0, hbase] at h2
  rw [step_lw_eq _ rd _ _ _ _ _ g0 g1 g2 g3] at h2
  refine ⟨_, _, h1, h2, ?_⟩
  simp only [Option.map_some', clear_x0]
  rw [set_reg_other _ _ _ _ hrd, set_reg_same]
  exact word_of_bytes _ (hregs rs)

/-- Witness of C1: a negative word stored at an address whose last three bytes
wrap around (`x2 = 2147483647`, offset `-2`), with a space in the operands. -/
theorem sw_lw_round_trip_witness :
    ∃ m1 m2,
      step { registers :=
               { r := fun i => if i = 1 then -19088744 else if i = 2 then 2147483647 else 0 },
             memory := ht_init 256 } (mem_text "sw".toList 1 " -2".toList 2) = some m1 ∧
      step m1 (mem_text "lw".toList 3 " -2".toList 2) = some m2 ∧
      m2.registers.r 3 = -19088744 :=
  sw_lw_round_trip
    { registers :=
        { r := fun i => if i = 1 then -19088744 else if i = 2 then 2147483647 else 0 },
      memory := ht_init 256 } 1 2 3 " -2".toList
    (by intro i; simp only; unfold isInt32; split_ifs <;> decide)
    memory_ok_init (by decide) (by decide) (Or.inl (by decide))

/-! ## Register 0 -/

theorem clear_x0_zero (m : Machine) : (clear_x0 m).registers.r 0 = 0 := by
  simp [clear_x0, set_reg]

theorem get_op_type_unknown_iff (op : List Char) :
    get_op_type op = UNKNOWN_TYPE ↔ op ∉ supported_mnemonics := by
  unfold get_op_type supported_mnemonics
  simp only [List.mem_append, not_or]
  constructor
  · intro h
    split_ifs at h with h1 h2 h3 h4
    · exact absurd h (by decide)
    · exact absurd h (by decide)
    · exact absurd h (by decide)
    · exact absurd h (by decide)
    · exact ⟨⟨⟨h1, h2⟩, h3⟩, h4⟩
  · rintro ⟨⟨⟨h1, h2⟩, h3⟩, h4⟩
    simp [h1, h2, h3, h4]

theorem step_known_zero (m m1 : Machine) (line : List Char)
    (hop : mnemonic line ∈ supported_mnemonics) (h : step m line = some m1) :
    m1.registers.r 0 = 0 := by
  have hk : ¬ get_op_type (mnemonic line) = UNKNOWN_TYPE := fun e =>
    (get_op_type_unknown_iff _).mp e hop
  unfold mnemonic at hk
  unfold step step_in_buffer strsep at h
  simp only [hk, if_false] at h
  split at h
  · exact absurd h (by simp)
  · obtain ⟨x, _, hx⟩ := Option.map_eq_some'.mp h
    rw [← hx]
    exact clear_x0_zero x

theorem step_r_text_some (m : Machine) (op : List Char) (hop : op ∈ r_type_op)
    (rd rs1 rs2 : Fin 32) : ∃ m1, step m (r_text op rd rs1 rs2) = some m1 := by
  unfold r_text
  rw [step_r_line m _ _ hop, remove_spaces_r_operands, step_r_type_operands]
  simp only
  split_ifs <;> exact ⟨_, rfl⟩

theorem step_i_text_some (m : Machine) (op : List Char) (hop : op ∈ i_type_op)
    (rd rs1 : Fin 32) (imm : List Char) : ∃ m1, step m (i_text op rd rs1 imm) = some m1 := by
  unfold i_text
  rw [step_i_line m _ _ hop, remove_spaces_i_operands, step_i_type_operands]
  simp only
  split_ifs <;> exact ⟨_, rfl⟩

theorem step_u_text_eq (m : Machine) (rd : Fin 32) (imm : List Char) :
    step m (u_text rd imm) = some (clear_x0
      { m with registers := set_reg m.registers rd (shl32 (imm_value imm) 12) }) := by
  unfold u_text
  rw [step_u_line m _ _ (by decide), remove_spaces_u_operands, step_u_type_operands]
  rfl

theorem step_mem_text_some (m : Machine) (op : List Char) (hop : op ∈ mem_type_op)
    (r1 r2 : Fin 32) (off : List Char) (hmem : memory_ok m.memory) (hoff : '(' ∉ off) :
    ∃ m1, step m (mem_text op r1 off r2) = some m1 := by
  have ha : isInt32 (add32 (m.registers.r r2) (imm_value off)) := isInt32_add32 _ _
  simp only [mem_type_op, List.mem_cons, List.mem_singleton, List.not_mem_nil, or_false] at hop
  rcases hop with rfl | rfl | rfl | rfl
  · obtain ⟨b0, g0⟩ := memory_ok_ht_get m.memory hmem _ ha
    obtain ⟨b1, g1⟩ := memory_ok_ht_get m.memory hmem _ (isInt32_add32 _ 1)
    obtain ⟨b2, g2⟩ := memory_ok_ht_get m.memory hmem _ (isInt32_add32 _ 2)
    obtain ⟨b3, g3⟩ := memory_ok_ht_get m.memory hmem _ (isInt32_add32 _ 3)
    rw [step_lw_text m r1 r2 off hoff, step_lw_eq m r1 _ _ _ _ _ g0 g1 g2 g3]
    exact ⟨_, rfl⟩
  · obtain ⟨b0, g0⟩ := memory_ok_ht_get m.memory hmem _ ha
    rw [step_lb_text m r1 r2 off hoff]
    simp only [step_lb, g0, reg_write_val]
    exact ⟨_, rfl⟩
  · obtain ⟨t4, hsw, _⟩ := step_sw_ok m r1 _ hmem ha
    rw [step_sw_text m r1 r2 off hoff, hsw]
    exact ⟨_, rfl⟩
  · obtain ⟨t1, e1, _⟩ := memory_ok_ht_add m.memory hmem _ (and32 (m.registers.r r2) 255) ha
    rw [step_sb_text m r1 r2 off hoff]
    simp only [step_sb, reg_read_val, e1]
    exact ⟨_, rfl⟩

/-- C2: register 0 is 0 after `step` returns from any line whose mnemonic is
one of the 19 supported ones, whatever register 0 held before; and `step` does
return on every R, I, MEM and U instruction whose register operands are in
0..31 (for MEM, on a memory as `init` creates it), in particular on those that
name `x0` as destination. -/
theorem register_zero_invariant :
    (∀ (m m1 : Machine) (line : List Char), mnemonic line ∈ supported_mnemonics →
      step m line = some m1 → m1.registers.r 0 = 0) ∧
    (∀ (m : Machine) (op : List Char) (rd rs1 rs2 : Fin 32), op ∈ r_type_op →
      ∃ m1, step m (r_text op rd rs1 rs2) = some m1 ∧ m1.registers.r 0 = 0) ∧
    (∀ (m : Machine) (op : List Char) (rd rs1 : Fin 32) (imm : List Char), op ∈ i_type_op →
      ∃ m1, step m (i_text op rd rs1 imm) = some m1 ∧ m1.registers.r 0 = 0) ∧
    (∀ (m : Machine) (op : List Char) (r1 r2 : Fin 32) (off : List Char), op ∈ mem_type_op →
      memory_ok m.memory → '(' ∉ off →
      ∃ m1, step m (mem_text op r1 off r2) = some m1 ∧ m1.registers.r 0 = 0) ∧
    (∀ (m : Machine) (rd : Fin 32) (imm : List Char),
      ∃ m1, step m (u_text rd imm) = some m1 ∧ m1.registers.r 0 = 0) := by
  refine ⟨step_known_zero, ?_, ?_, ?_, ?_⟩
  · intro m op rd rs1 rs2 hop
    obtain ⟨m1, h⟩ := step_r_text_some m op hop rd rs1 rs2
    refine ⟨m1, h, step_known_zero m m1 _ ?_ h⟩
    have hm : mnemonic (r_text op rd rs1 rs2) = op := by
      have := strsep_found ' ' op (reg_text rd ++ ',' :: (reg_text rs1 ++ ',' :: reg_text rs2))
        (r_type_op_facts op hop).1
      simp only [strsep, Prod.mk.injEq, Option.some.injEq] at this
      exact this.1
    rw [hm]
    simp [supported_mnemonics, hop]
  · intro m op rd rs1 imm hop
    obtain ⟨m1, h⟩ := step_i_text_some m op hop rd rs1 imm
    refine ⟨m1, h, step_known_zero m m1 _ ?_ h⟩
    have hm : mnemonic (i_text op rd rs1 imm) = op := by
      have := strsep_found ' ' op (reg_text rd ++ ',' :: (reg_text rs1 ++ ',' :: imm))
        (i_type_op_facts op hop).1
      simp only [strsep, Prod.mk.injEq, Option.some.injEq] at this
      exact this.1
    rw [hm]
    simp [supported_mnemonics, hop]
  · intro m op r1 r2 off hop hmem hoff
    obtain ⟨m1, h⟩ := step_mem_text_some m op hop r1 r2 off hmem hoff
    refine ⟨m1, h, step_known_zero m m1 _ ?_ h⟩
    have hm : mnemonic (mem_text op r1 off r2) = op := by
      have := strsep_found ' ' op (reg_text r1 ++ ',' :: (off ++ '(' :: (reg_text r2 ++ [')'])))
        (mem_type_op_facts op hop).1
      simp only [strsep, Prod.mk.injEq, Option.some.injEq] at this
      exact this.1
    rw [hm]
    simp [supported_mnemonics, hop]
  · intro m rd imm
    exact ⟨_, step_u_text_eq m rd imm, clear_x0_zero _⟩

/-- Witness of C2: `lw x0,4(x2)` on a register file whose register 0 holds 7. -/
theorem register_zero_invariant_witness :
    ∃ m1, step { registers := { r := fun _ => 7 }, memory := ht_init 256 }
        (mem_text "lw".toList 0 "4".toList 2) = some m1 ∧ m1.registers.r 0 = 0 :=
  register_zero_invariant.2.2.2.1
    { registers := { r := fun _ => 7 }, memory := ht_init 256 } "lw".toList 0 2 "4".toList
    (by decide) memory_ok_init (by decide)

/-! ## The store: overwrite, default value, frame -/

theorem store_ok_has_bucket (t : hashtable) (h : store_ok t) (k : Int) (hk : isInt32 k)
    (hmin : k ≠ -2147483648) : has_bucket t k := by
  obtain ⟨h0, hlt, hlen⟩ := h
  have hof : ofU32 t.num_buckets = (t.num_buckets : Int) := by
    unfold ofU32
    split <;> omega
  obtain ⟨i, hi, hi0, hin⟩ := hash_of_pos k (t.num_buckets : Int) hk hmin (by omega)
  obtain ⟨l, hl⟩ := bucket_at_of_lt t.buckets i hi0 (by omega)
  exact ⟨i, l, by rw [hof]; exact hi, hl⟩

theorem store_ok_ht_init (n : Int) (h0 : 0 < n) (hlt : n < 2147483648) :
    store_ok (ht_init n) := by
  unfold store_ok ht_init toU32
  simp only [List.length_replicate]
  omega

theorem store_ok_ht_add (t t1 : hashtable) (k v : Int) (h : store_ok t)
    (h1 : ht_add t k v = some t1) : store_ok t1 := by
  obtain ⟨e1, e2⟩ := ht_add_num_buckets t t1 k v h1
  unfold store_ok at h ⊢
  rw [e1, e2]
  exact h

/-- Overwrite, for an address that has a bucket: the second `ht_add` replaces
the value and leaves the size as the first one made it. -/
theorem ht_add_overwrite (t : hashtable) (a v1 v2 : Int) (h : has_bucket t a) :
    ∃ t1 t2, ht_add t a v1 = some t1 ∧ ht_add t1 a v2 = some t2 ∧
      ht_get t2 a = some v2 ∧ ht_size t2 = ht_size t1 := by
  obtain ⟨t1, e1⟩ := Option.isSome_iff_exists.mp ((ht_add_some_iff t a v1).mpr h)
  have hb1 : has_bucket t1 a := by
    obtain ⟨i, l, hh, hb, hi, rfl⟩ := ht_add_inv t t1 a v1 e1
    exact ⟨i, _, hh, bucket_at_set_same _ _ _ _ hb⟩
  obtain ⟨t2, e2⟩ := Option.isSome_iff_exists.mp ((ht_add_some_iff t1 a v2).mpr hb1)
  exact ⟨t1, t2, e1, e2, ht_get_ht_add_same _ _ _ _ e2, ht_size_ht_add_again _ _ _ _ _ _ e1 e2⟩

/-- Default value, for an address that has a bucket in a new table. -/
theorem ht_get_ht_init (n a : Int) (h0 : 0 < n) (hlt : n < 2147483648) (ha : isInt32 a)
    (hmin : a ≠ -2147483648) : ht_get (ht_init n) a = some 0 := by
  obtain ⟨i, l, hh, hb⟩ := store_ok_has_bucket _ (store_ok_ht_init n h0 hlt) a ha hmin
  have hl : l = ll_init := by
    unfold bucket_at ht_init at hb
    split at hb
    · simp only at hb
      obtain ⟨hlt, hget⟩ := List.getElem?_eq_some_iff.mp hb
      rw [← hget]
      exact List.getElem_replicate _ _
    · simp at hb
  subst hl
  simp [ht_get, hh, hb, ll_get, ll_init, ll_get_loop]

/-- A sequence of `ht_add` that never uses the address `a` leaves `ht_get a`
as it was. -/
theorem ht_get_ht_add_all (kvs : List (Int × Int)) (a : Int) :
    ∀ t t1, ht_add_all t kvs = some t1 → (∀ kv ∈ kvs, toU32 a ≠ toU32 kv.1) →
      ht_get t1 a = ht_get t a := by
  induction kvs with
  | nil =>
    intro t t1 h _
    simp only [ht_add_all, Option.some.injEq] at h
    rw [h]
  | cons kv rest ih =>
    intro t t1 h hne
    unfold ht_add_all at h
    cases e : ht_add t kv.1 kv.2 with
    | none => simp [e] at h
    | some t0 =>
      simp only [e] at h
      rw [ih t0 t1 h (fun x hx => hne x (List.mem_cons_of_mem _ hx))]
      exact ht_get_ht_add_other t t0 _ _ _ e (hne kv (List.mem_cons_self _ _))

/-- Default value, for an address other than `-2^31`: `ht_get` returns 0 in
every table reached from `ht_init n` by calls of `ht_add` at other addresses. -/
theorem ht_get_default (n a : Int) (kvs : List (Int × Int)) (t1 : hashtable) (h0 : 0 < n)
    (hlt : n < 2147483648) (ha : isInt32 a) (hmin : a ≠ -2147483648)
    (h : ht_add_all (ht_init n) kvs = some t1) (hne : ∀ kv ∈ kvs, toU32 a ≠ toU32 kv.1) :
    ht_get t1 a = some 0 := by
  rw [ht_get_ht_add_all kvs a _ _ h hne]
  exact ht_get_ht_init n a h0 hlt ha hmin

/-! ## The size of the store -/

theorem ll_add_loop_none_iff (k : Nat) (v : Int) (nodes : List linkedlist_node) :
    ll_add_loop k v nodes = none ↔ k ∉ nodes.map (fun node => node.key) := by
  induction nodes with
  | nil => simp [ll_add_loop]
  | cons node next ih =>
    by_cases hk : node.key = k
    · simp [ll_add_loop, hk]
    · have hk2 : ¬ k = node.key := fun e => hk e.symm
      simp [ll_add_loop, hk, hk2, ih]

theorem ll_add_loop_keys (k : Nat) (v : Int) (nodes : List linkedlist_node) :
    ∀ nodes1, ll_add_loop k v nodes = some nodes1 →
      nodes1.map (fun node => node.key) = nodes.map (fun node => node.key) := by
  induction nodes with
  | nil => intro nodes1 h; simp [ll_add_loop] at h
  | cons node next ih =>
    intro nodes1 h
    by_cases hk : node.key = k
    · simp [ll_add_loop, hk] at h
      subst h
      simp [hk]
    · simp only [ll_add_loop, hk, if_false, Option.map_eq_some'] at h
      obtain ⟨rest, hrest, rfl⟩ := h
      simp [ih rest hrest]

theorem ll_add_present (l : linkedlist) (a v : Int) (h : toU32 a ∈ ll_keys l) :
    ll_keys (ll_add l a v) = ll_keys l ∧ (ll_add l a v).size = l.size := by
  unfold ll_keys at h ⊢
  unfold ll_add
  cases e : ll_add_loop (toU32 a) v l.first with
  | none => exact absurd h ((ll_add_loop_none_iff _ _ _).mp e)
  | some nodes => exact ⟨ll_add_loop_keys _ _ _ _ e, rfl⟩

theorem ll_add_absent (l : linkedlist) (a v : Int) (h : toU32 a ∉ ll_keys l) :
    ll_keys (ll_add l a v) = toU32 a :: ll_keys l ∧
      (ll_add l a v).size = (l.size + 1) % 4294967296 := by
  unfold ll_keys at h ⊢
  unfold ll_add
  rw [(ll_add_loop_none_iff _ v _).mpr h]
  exact ⟨rfl, rfl⟩

theorem mem_ll_keys_ll_add (l : linkedlist) (a v : Int) (k : Nat) :
    k ∈ ll_keys (ll_add l a v) ↔ k ∈ ll_keys l ∨ k = toU32 a := by
  by_cases h : toU32 a ∈ ll_keys l
  · rw [(ll_add_present l a v h).1]
    constructor
    · exact Or.inl
    · rintro (h1 | h1)
      · exact h1
      · rw [h1]; exact h
  · rw [(ll_add_absent l a v h).1, List.mem_cons]
    exact or_comm

theorem counted_ht_init (n : Int) (h0 : 0 < n) (hlt : n < 2147483648) :
    counted (ht_init n) ∅ 0 := by
  refine ⟨store_ok_ht_init n h0 hlt, rfl, Nat.le_refl _, ?_, ?_⟩
  · intro l hl
    have := (List.mem_replicate.mp hl).2
    subst this
    exact Nat.le_refl _
  · intro k i l _ _ hb
    have hl : l = ll_init := by
      unfold bucket_at ht_init at hb
      split at hb
      · simp only at hb
        obtain ⟨hlt, hget⟩ := List.getElem?_eq_some_iff.mp hb
        rw [← hget]
        exact List.getElem_replicate _ _
      · simp at hb
    subst hl
    simp [ll_keys, ll_init]

theorem hash_ge_zero_of_bucket (buckets : List linkedlist) (i : Int) (l : linkedlist)
    (h : bucket_at buckets i = some l) : 0 ≤ i := by
  unfold bucket_at at h
  by_contra hneg
  simp [hneg] at h

theorem counted_ht_add (t : hashtable) (seen : Finset Nat) (c : Nat) (a v : Int)
    (h : counted t seen c) (ha : isInt32 a) (hmin : a ≠ -2147483648)
    (hc : c + 1 < 2147483648) :
    ∃ t1, ht_add t a v = some t1 ∧ counted t1 (insert (toU32 a) seen) (c + 1) := by
  obtain ⟨hok, hsize, hle, hbs, hkeys⟩ := h
  obtain ⟨i, l, hh, hb⟩ := store_ok_has_bucket t hok a ha hmin
  have hi : 0 ≤ i := hash_ge_zero_of_bucket _ _ _ hb
  have hlmem : l ∈ t.buckets := by
    unfold bucket_at at hb
    simp only [hi, if_true] at hb
    obtain ⟨hlt, hget⟩ := List.getElem?_eq_some_iff.mp hb
    rw [← hget]
    exact List.getElem_mem _
  have hlc : l.size ≤ c := hbs l hlmem
  have e := ht_add_eq t a v i l hh hb
  refine ⟨_, e, store_ok_ht_add t _ a v hok e, ?_, ?_, ?_, ?_⟩
  · by_cases hp : toU32 a ∈ ll_keys l
    · have hs : toU32 a ∈ seen := (hkeys a i l ha hh hb).mp hp
      simp only [ll_size, (ll_add_present l a v hp).2, gt_iff_lt, lt_self_iff_false, if_false]
      rw [Finset.insert_eq_of_mem hs]
      exact hsize
    · have hs : toU32 a ∉ seen := fun x => hp ((hkeys a i l ha hh hb).mpr x)
      have h1 : (l.size + 1) % 4294967296 = l.size + 1 := Nat.mod_eq_of_lt (by omega)
      have h2 : (t.size + 1) % 4294967296 = t.size + 1 := Nat.mod_eq_of_lt (by omega)
      have h3 : ofU32 l.size < ofU32 (l.size + 1) := by
        unfold ofU32
        split_ifs <;> omega
      simp only [ll_size, (ll_add_absent l a v hp).2, h1, h2, gt_iff_lt, h3, if_true]
      rw [Finset.card_insert_of_not_mem hs, hsize]
  · simp only
    split <;> omega
  · intro l1 hl1
    simp only at hl1
    rcases List.mem_or_eq_of_mem_set hl1 with h1 | h1
    · have := hbs l1 h1
      omega
    · subst h1
      by_cases hp : toU32 a ∈ ll_keys l
      · rw [(ll_add_present l a v hp).2]; omega
      · rw [(ll_add_absent l a v hp).2]; omega
  · intro k j l1 hk hj hb1
    simp only at hj hb1
    rw [Finset.mem_insert]
    by_cases hji : j = i
    · subst hji
      rw [bucket_at_set_same _ _ _ _ hb] at hb1
      have := Option.some.inj hb1
      subst this
      rw [mem_ll_keys_ll_add, hkeys k j l hk hj hb]
      exact or_comm
    · rw [bucket_at_set_other _ _ _ _ hi hji] at hb1
      rw [hkeys k j l1 hk hj hb1]
      constructor
      · exact Or.inr
      · rintro (h1 | h1)
        · have hka : k = a := toU32_inj hk ha h1
          subst hka
          rw [hh] at hj
          exact absurd (Option.some.inj hj).symm hji
        · exact h1

theorem counted_ht_add_all (kvs : List (Int × Int)) :
    ∀ (t : hashtable) (seen : Finset Nat) (c : Nat), counted t seen c →
      (∀ kv ∈ kvs, isInt32 kv.1 ∧ kv.1 ≠ -2147483648) → c + kvs.length < 2147483648 →
      ∃ t1, ht_add_all t kvs = some t1 ∧
        counted t1 (seen ∪ (kvs.map (fun kv => toU32 kv.1)).toFinset) (c + kvs.length) := by
  induction kvs with
  | nil =>
    intro t seen c h _ _
    exact ⟨t, rfl, by simpa using h⟩
  | cons kv rest ih =>
    intro t seen c h hk hc
    simp only [List.length_cons] at hc
    obtain ⟨hk1, hk2⟩ := hk kv (List.mem_cons_self _ _)
    obtain ⟨t0, e0, h0⟩ := counted_ht_add t seen c kv.1 kv.2 h hk1 hk2 (by omega)
    obtain ⟨t1, e1, h1⟩ := ih t0 _ (c + 1) h0
      (fun x hx => hk x (List.mem_cons_of_mem _ hx)) (by omega)
    refine ⟨t1, ?_, ?_⟩
    · simp only [ht_add_all, e0]
      exact e1
    · have hs : insert (toU32 kv.1) seen ∪ (rest.map (fun kv => toU32 kv.1)).toFinset
          = seen ∪ ((kv :: rest).map (fun kv => toU32 kv.1)).toFinset := by
        simp only [List.map_cons, List.toFinset_cons, Finset.insert_union, Finset.union_insert]
      have hcount : c + 1 + rest.length = c + (rest.length + 1) := by omega
      rw [hs, hcount] at h1
      simpa using h1

/-- Size counts the distinct addresses, as long as every address has a bucket
and the counters stay positive as `int`: on the table of `ht_init n` with
`0 < n`, a sequence of fewer than `2^31` calls of `ht_add`, none at the address
`-2^31`, succeeds and leaves `ht_size` equal to the number of distinct
addresses. -/
theorem ht_size_counts_distinct (n : Int) (kvs : List (Int × Int)) (h0 : 0 < n)
    (hlt : n < 2147483648) (hk : ∀ kv ∈ kvs, isInt32 kv.1 ∧ kv.1 ≠ -2147483648)
    (hlen : kvs.length < 2147483648) :
    ∃ t, ht_add_all (ht_init n) kvs = some t ∧ ht_size t = distinct_addresses kvs := by
  obtain ⟨t, e, hc⟩ := counted_ht_add_all kvs (ht_init n) ∅ 0 (counted_ht_init n h0 hlt) hk
    (by omega)
  refine ⟨t, e, ?_⟩
  rw [Finset.empty_union] at hc
  exact hc.2.1

/-! ## The address `-2^31` -/

/-- C3: evaluation at the failing input. In a table of 3 buckets the address
`-2^31` hashes to the index `-2`, outside of the array of buckets, so the first
`ht_add` already fails and no overwrite takes place. -/
theorem ht_add_min_address_fails :
    hash (-2147483648) 3 = some (-2) ∧ ht_add (ht_init 3) (-2147483648) 1 = none := by
  decide

/-- C4: evaluation at the failing input. `ht_get` on the new table of 3
buckets does not return 0 for the address `-2^31`: its bucket index `-2` is
outside of the array. -/
theorem ht_get_min_address_fails : ht_get (ht_init 3) (-2147483648) = none := by
  decide

/-- C5: evaluation at the failing input. In a table of 7 buckets that holds 5
at address 1, `ht_add` at the distinct address `-2^31` fails (bucket index
`-2`), so there is no table after it in which address 1 could be read. -/
theorem ht_add_frame_min_address_fails :
    (ht_add (ht_init 7) 1 5).bind (fun t => ht_get t 1) = some 5 ∧
    (ht_add (ht_init 7) 1 5).bind (fun t => ht_add t (-2147483648) 9) = none := by
  decide

/-- C6: evaluation at the failing input. The sequence of `ht_add` at the two
distinct addresses 1 and `-2^31` on a new table of 3 buckets does not reach a
table of size 2: the second call fails. -/
theorem ht_add_all_min_address_fails :
    ht_add_all (ht_init 3) [(1, 10), (-2147483648, 20)] = none := by
  decide

/-! ## Byte load -/

theorem sign_extend_byte (b : Int) (h0 : 0 ≤ b) (h255 : b ≤ 255) :
    sar32 (shl32 b 24) 24 = if b < 128 then b else b - 256 := by
  rw [sar32_eq, shl32_eq_wrap32_24]
  unfold wrap32 ofU32 toU32
  norm_num
  split_ifs <;> omega

/-- C7: `lb` sign-extends the byte it loads: when the memory byte at the
address (base register plus offset) is `b` with `0 ≤ b ≤ 255` and `rd ≠ 0`,
`lb` leaves `b` in `rd` when `b < 128` and `b - 256` when `b ≥ 128`. -/
theorem lb_sign_extends (m : Machine) (rd rb : Fin 32) (off : List Char) (b : Int)
    (hoff : '(' ∉ off) (hrd : rd ≠ 0)
    (hb : ht_get m.memory (add32 (m.registers.r rb) (imm_value off)) = some b)
    (h0 : 0 ≤ b) (h255 : b ≤ 255) :
    ∃ m1, step m (mem_text "lb".toList rd off rb) = some m1 ∧
      m1.registers.r rd = if b < 128 then b else b - 256 := by
  have h1 := step_lb_text m rd rb off hoff
  simp only [step_lb, hb, reg_write_val, Option.map_some'] at h1
  refine ⟨_, h1, ?_⟩
  simp only [clear_x0]
  rw [set_reg_other _ _ _ _ hrd, set_reg_same]
  exact sign_extend_byte b h0 h255

set_option maxRecDepth 100000 in
/-- Witness of C7: the byte `0xff` stored by `sb` at address 255 is loaded by
`lb x2,0(x1)` as `-1`, not 255. -/
theorem lb_sign_extends_witness :
    ∃ m1, step machine_with_ff (mem_text "lb".toList 2 "0".toList 1) = some m1 ∧
      m1.registers.r 2 = -1 :=
  lb_sign_extends machine_with_ff 2 1 "0".toList 255 (by decide) (by decide) (by decide)
    (by decide) (by decide)

/-! ## Shifts -/

theorem and32_comm (a b : Int) : and32 a b = and32 b a := by
  unfold and32
  rw [Nat.land_comm]

theorem step_sll_text (m : Machine) (rd rs1 rs2 : Fin 32) :
    step m (r_text "sll".toList rd rs1 rs2) = some (clear_x0 { m with registers :=
      (set_reg m.registers rd
        (shl32 (m.registers.r rs1) (toU32 (and32 31 (m.registers.r rs2))))) }) := by
  unfold r_text
  rw [step_r_line m _ _ (by decide), remove_spaces_r_operands, step_r_type_operands]
  simp only
  rw [if_neg (by decide), if_neg (by decide), if_neg (by decide), if_neg (by decide),
    if_neg (by decide), if_neg (by decide), if_neg (by decide)]
  rfl

theorem step_sra_text (m : Machine) (rd rs1 rs2 : Fin 32) :
    step m (r_text "sra".toList rd rs1 rs2) = some (clear_x0 { m with registers :=
      (set_reg m.registers rd
        (sar32 (m.registers.r rs1) (toU32 (and32 31 (m.registers.r rs2))))) }) := by
  unfold r_text
  rw [step_r_line m _ _ (by decide), remove_spaces_r_operands, step_r_type_operands]
  simp only
  rw [if_neg (by decide), if_neg (by decide), if_neg (by decide), if_neg (by decide),
    if_neg (by decide), if_neg (by decide), if_neg (by decide), if_neg (by decide)]
  rfl

/-- C8: `sll` and `sra` use only the low 5 bits of the shift amount: two
states that agree on `rs1` and whose shift amounts in `rs2` agree in their low
5 bits (`s & 0x1f = t & 0x1f`) give the same value to the destination `rd`. -/
theorem shift_masking (m n : Machine) (op : List Char) (rd rs1 rs2 : Fin 32)
    (hop : op = "sll".toList ∨ op = "sra".toList)
    (hv : m.registers.r rs1 = n.registers.r rs1)
    (hlow : and32 (m.registers.r rs2) 31 = and32 (n.registers.r rs2) 31) :
    ∃ m1 n1, step m (r_text op rd rs1 rs2) = some m1 ∧
      step n (r_text op rd rs1 rs2) = some n1 ∧ m1.registers.r rd = n1.registers.r rd := by
  rw [and32_comm, and32_comm (n.registers.r rs2)] at hlow
  rcases hop with rfl | rfl
  · refine ⟨_, _, step_sll_text m rd rs1 rs2, step_sll_text n rd rs1 rs2, ?_⟩
    simp only [clear_x0, set_reg, hv, hlow, if_true]
  · refine ⟨_, _, step_sra_text m rd rs1 rs2, step_sra_text n rd rs1 rs2, ?_⟩
    simp only [clear_x0, set_reg, hv, hlow, if_true]

/-- Witness of C8: `sra x3,x1,x2` on `x1 = -20` with the amount 33 and with
the amount 1. -/
theorem shift_masking_witness :
    ∃ m1 n1,
      step { registers := { r := fun i => if i = 1 then -20 else 33 }, memory := ht_init 256 }
        (r_text "sra".toList 3 1 2) = some m1 ∧
      step { registers := { r := fun i => if i = 1 then -20 else 1 }, memory := ht_init 256 }
        (r_text "sra".toList 3 1 2) = some n1 ∧
      m1.registers.r 3 = n1.registers.r 3 :=
  shift_masking
    { registers := { r := fun i => if i = 1 then -20 else 33 }, memory := ht_init 256 }
    { registers := { r := fun i => if i = 1 then -20 else 1 }, memory := ht_init 256 }
    "sra".toList 3 1 2 (Or.inr rfl) (by decide) (by decide)

/-! ## The end-to-end scenario -/

set_option maxRecDepth 100000 in
/-- C9: from `init` on 32 zero registers, `addi x1,x0,5` leaves 5 in `x1`;
then `addi x2,x0,-3` leaves -3 in `x2`; then `add x3,x1,x2` leaves 2 in `x3`;
then `sw x3,0(x0)` and `lw x4,0(x0)` leave 2 in `x4`. -/
theorem end_to_end :
    (run (init zero_registers) ["addi x1,x0,5".toList]).map (fun m => m.registers.r 1)
      = some 5 ∧
    (run (init zero_registers) ["addi x1,x0,5".toList, "addi x2,x0,-3".toList]).map
      (fun m => m.registers.r 2) = some (-3) ∧
    (run (init zero_registers)
      ["addi x1,x0,5".toList, "addi x2,x0,-3".toList, "add x3,x1,x2".toList]).map
      (fun m => m.registers.r 3) = some 2 ∧
    (run (init zero_registers)
      ["addi x1,x0,5".toList, "addi x2,x0,-3".toList, "add x3,x1,x2".toList,
       "sw x3,0(x0)".toList, "lw x4,0(x0)".toList]).map
      (fun m => m.registers.r 4) = some 2 := by
  decide

/-! ## Unknown instructions -/

/-- C10: a line whose mnemonic (the text before the first space) is not one of
the 19 supported mnemonics leaves the machine as it is: `step` returns the
same registers, register 0 included, and the same memory. -/
theorem unknown_is_noop (m : Machine) (line : List Char)
    (h : mnemonic line ∉ supported_mnemonics) : step m line = some m := by
  have hk : get_op_type (mnemonic line) = UNKNOWN_TYPE := (get_op_type_unknown_iff _).mpr h
  unfold mnemonic at hk
  unfold step step_in_buffer strsep
  simp only [hk, if_true]

/-- Witness of C10: `mul x1,x2,x3` on a machine whose register 0 holds 7. -/
theorem unknown_is_noop_witness :
    step { registers := { r := fun _ => 7 }, memory := ht_init 256 } "mul x1,x2,x3".toList
      = some { registers := { r := fun _ => 7 }, memory := ht_init 256 } :=
  unknown_is_noop _ _ (by decide)

/-! ## The decoder -/

theorem get_op_type_r_iff (op : List Char) : get_op_type op = R_TYPE ↔ op ∈ r_type_op := by
  unfold get_op_type
  constructor
  · intro h
    split_ifs at h with h1 h2 h3 h4
    · exact h1
    · exact absurd h (by decide)
    · exact absurd h (by decide)
    · exact absurd h (by decide)
    · exact absurd h (by decide)
  · intro h
    simp [h]

theorem tables_disjoint :
    (∀ op ∈ i_type_op, op ∉ r_type_op) ∧
    (∀ op ∈ mem_type_op, op ∉ r_type_op ∧ op ∉ i_type_op) ∧
    (∀ op ∈ u_type_op, op ∉ r_type_op ∧ op ∉ i_type_op ∧ op ∉ mem_type_op) := by
  decide

theorem get_op_type_i_iff (op : List Char) : get_op_type op = I_TYPE ↔ op ∈ i_type_op := by
  unfold get_op_type
  constructor
  · intro h
    split_ifs at h with h1 h2 h3 h4
    · exact absurd h (by decide)
    · exact h2
    · exact absurd h (by decide)
    · exact absurd h (by decide)
    · exact absurd h (by decide)
  · intro h
    simp [h, tables_disjoint.1 op h]

theorem get_op_type_mem_iff (op : List Char) :
    get_op_type op = MEM_TYPE ↔ op ∈ mem_type_op := by
  unfold get_op_type
  constructor
  · intro h
    split_ifs at h with h1 h2 h3 h4
    · exact absurd h (by decide)
    · exact absurd h (by decide)
    · exact h3
    · exact absurd h (by decide)
    · exact absurd h (by decide)
  · intro h
    obtain ⟨n1, n2⟩ := tables_disjoint.2.1 op h
    simp [h, n1, n2]

theorem get_op_type_u_iff (op : List Char) : get_op_type op = U_TYPE ↔ op ∈ u_type_op := by
  unfold get_op_type
  constructor
  · intro h
    split_ifs at h with h1 h2 h3 h4
    · exact absurd h (by decide)
    · exact absurd h (by decide)
    · exact absurd h (by decide)
    · exact h4
    · exact absurd h (by decide)
  · intro h
    obtain ⟨n1, n2, n3⟩ := tables_disjoint.2.2 op h
    simp [h, n1, n2, n3]

/-- C11: `get_op_type` is an exact lookup. For every string `m` it returns
`R_TYPE` iff `m` is one of add, sub, and, or, xor, nor, slt, sll, sra; `I_TYPE`
iff `m` is one of addi, andi, ori, xori, slti; `MEM_TYPE` iff `m` is one of lw,
lb, sw, sb; `U_TYPE` iff `m` is lui; and `UNKNOWN_TYPE` iff `m` is none of
these 19; the empty string, `ADD` and strings that extend a mnemonic are
unknown. -/
theorem get_op_type_exact :
    (∀ m : List Char,
      (get_op_type m = R_TYPE ↔
        m ∈ ["add".toList, "sub".toList, "and".toList, "or".toList, "xor".toList,
             "nor".toList, "slt".toList, "sll".toList, "sra".toList]) ∧
      (get_op_type m = I_TYPE ↔
        m ∈ ["addi".toList, "andi".toList, "ori".toList, "xori".toList, "slti".toList]) ∧
      (get_op_type m = MEM_TYPE ↔
        m ∈ ["lw".toList, "lb".toList, "sw".toList, "sb".toList]) ∧
      (get_op_type m = U_TYPE ↔ m = "lui".toList) ∧
      (get_op_type m = UNKNOWN_TYPE ↔
        m ∉ ["add".toList, "sub".toList, "and".toList, "or".toList, "xor".toList,
             "nor".toList, "slt".toList, "sll".toList, "sra".toList,
             "addi".toList, "andi".toList, "ori".toList, "xori".toList, "slti".toList,
             "lw".toList, "lb".toList, "sw".toList, "sb".toList, "lui".toList])) ∧
    get_op_type "".toList = UNKNOWN_TYPE ∧
    get_op_type "ADD".toList = UNKNOWN_TYPE ∧
    get_op_type "Lw".toList = UNKNOWN_TYPE ∧
    get_op_type "addx".toList = UNKNOWN_TYPE ∧
    get_op_type "addiu".toList = UNKNOWN_TYPE ∧
    get_op_type "lwu".toList = UNKNOWN_TYPE ∧
    get_op_type "luii".toList = UNKNOWN_TYPE ∧
    get_op_type "ad".toList = UNKNOWN_TYPE := by
  refine ⟨fun m => ⟨get_op_type_r_iff m, get_op_type_i_iff m, get_op_type_mem_iff m, ?_, ?_⟩,
    by decide, by decide, by decide, by decide, by decide, by decide, by decide, by decide⟩
  · rw [get_op_type_u_iff]
    simp [u_type_op]
  · rw [get_op_type_unknown_iff]
    rfl

/-! ## More 32-bit arithmetic -/

theorem toU32_cast (a : Int) : ((toU32 a : Nat) : Int) = a % 4294967296 := by
  unfold toU32
  omega

theorem toU32_ofU32 (n : Nat) : toU32 (ofU32 n) = n % 4294967296 := by
  unfold toU32 ofU32
  split <;> omega

theorem ofU32_congr (n n1 : Nat) (h : n % 4294967296 = n1 % 4294967296) :
    ofU32 n = ofU32 n1 := by
  unfold ofU32
  rw [h]

theorem shl32_eq_wrap32 (a : Int) (k : Nat) : shl32 a k = wrap32 (a * 2 ^ k) := by
  unfold shl32 wrap32
  apply ofU32_congr
  rw [Nat.shiftLeft_eq]
  have h1 : (((toU32 a * 2 ^ k % 4294967296 : Nat)) : Int)
      = ((toU32 (a * 2 ^ k) % 4294967296 : Nat) : Int) := by
    push_cast
    rw [toU32_cast, toU32_cast, Int.emod_emod_of_dvd _ (dvd_refl _), Int.mul_emod,
      Int.emod_emod_of_dvd _ (dvd_refl _), ← Int.mul_emod]
  exact_mod_cast h1

theorem wrap32_spec (x : Int) :
    isInt32 (wrap32 x) ∧ (wrap32 x - x) % 4294967296 = 0 := by
  refine ⟨isInt32_wrap32 x, ?_⟩
  unfold wrap32 ofU32 toU32
  split <;> omega

theorem toU32_and32_31 (b : Int) : toU32 (and32 31 b) = toU32 b % 32 := by
  unfold and32
  have h1 : toU32 31 = 2 ^ 5 - 1 := by decide
  rw [toU32_ofU32, h1, Nat.land_comm, Nat.and_pow_two_sub_one_eq_mod]
  have := Nat.mod_lt (toU32 b) (show 0 < 2 ^ 5 by decide)
  omega

theorem not32_eq (a : Int) (h : isInt32 a) : not32 a = -a - 1 := by
  have hx : toU32 a ^^^ 4294967295 = 4294967295 - toU32 a := by
    have hlt : toU32 a < 2 ^ 32 := by unfold toU32; omega
    apply Nat.eq_of_testBit_eq
    intro i
    have e : 4294967295 - toU32 a = 2 ^ 32 - (toU32 a + 1) := by omega
    rw [e, Nat.testBit_two_pow_sub_succ hlt, Nat.testBit_xor]
    have e2 : (4294967295 : Nat) = 2 ^ 32 - 1 := by norm_num
    rw [e2, Nat.testBit_two_pow_sub_one]
    by_cases hi : i < 32
    · simp [hi]
    · have : (toU32 a).testBit i = false :=
        Nat.testBit_lt_two_pow (lt_of_lt_of_le hlt (Nat.pow_le_pow_right (by decide) (by omega)))
      simp [hi, this]
  unfold not32
  rw [hx]
  unfold isInt32 at h
  unfold ofU32 toU32
  split <;> omega

/-! ## The hash function -/

/-- Away from `-2^31`, `hash` is `abs(key) mod max_range`, inside
`[0, max_range)`. -/
theorem hash_eq_abs_mod (key n : Int) (hk : isInt32 key) (hmin : key ≠ -2147483648)
    (hn : 0 < n) :
    hash key n = some ((key.natAbs : Int) % n) ∧
      0 ≤ (key.natAbs : Int) % n ∧ (key.natAbs : Int) % n < n := by
  refine ⟨?_, Int.emod_nonneg _ (by omega), Int.emod_lt_of_pos _ hn⟩
  unfold isInt32 at hk
  unfold hash
  by_cases hpos : key > 0
  · have h1 : ¬ (n = 0 ∨ (key = -2147483648 ∧ n = -1)) := by omega
    have h2 : (key.natAbs : Int) = key := by omega
    simp only [hpos, if_true, h1, if_false]
    rw [Int.tmod_eq_emod (by omega) (by omega), h2]
  · have hw : wrap32 (-key) = -key := wrap32_of_isInt32 (by unfold isInt32; omega)
    have h1 : ¬ (n = 0 ∨ (-key = -2147483648 ∧ n = -1)) := by omega
    have h2 : (key.natAbs : Int) = -key := by omega
    simp only [hpos, if_false, hw, h1]
    rw [Int.tmod_eq_emod (by omega) (by omega), h2]

/-- C15: evaluation at the failing input. For the key `-2^31` and
`max_range = 3` the negation gives `-2^31` again and `hash` returns `-2`,
which is neither in `[0, 3)` nor `abs(key) mod 3 = 2`. -/
theorem hash_min_key_out_of_range :
    hash (-2147483648) 3 = some (-2) ∧ ¬ ((0 : Int) ≤ -2 ∧ (-2 : Int) < 3) ∧
      ((-2147483648 : Int).natAbs : Int) % 3 = 2 := by
  decide

/-! ## Bits of an `int` -/

theorem nat_testBit_high (n i : Nat) (h : n < 2147483648) (hi : 31 ≤ i) :
    n.testBit i = false :=
  Nat.testBit_lt_two_pow (lt_of_lt_of_le h (by
    have : (2147483648 : Nat) = 2 ^ 31 := by norm_num
    rw [this]
    exact Nat.pow_le_pow_right (by decide) hi))

theorem int_testBit_of_isInt32 (a : Int) (h : isInt32 a) (i : Nat) :
    Int.testBit a i = (toU32 a).testBit (min i 31) := by
  unfold isInt32 at h
  cases a with
  | ofNat n =>
    rw [Int.ofNat_eq_coe] at h ⊢
    have hn : n < 2147483648 := by omega
    have e : toU32 (n : Int) = n := by unfold toU32; omega
    rw [e]
    show n.testBit i = n.testBit (min i 31)
    by_cases hi : i ≤ 31
    · rw [Nat.min_eq_left hi]
    · rw [Nat.min_eq_right (by omega), nat_testBit_high n i hn (by omega),
        nat_testBit_high n 31 hn (Nat.le_refl _)]
  | negSucc n =>
    have hn : n < 2147483648 := by rw [Int.negSucc_eq] at h; omega
    have e : toU32 (Int.negSucc n) = 2 ^ 32 - (n + 1) := by
      unfold toU32
      rw [Int.negSucc_eq]
      norm_num
      omega
    have hlt : n < 2 ^ 32 := by norm_num; omega
    rw [e, Nat.testBit_two_pow_sub_succ hlt]
    show (!n.testBit i) = _
    have hj : min i 31 < 32 := by omega
    simp only [hj, decide_True, Bool.true_and]
    by_cases hi : i ≤ 31
    · rw [Nat.min_eq_left hi]
    · rw [Nat.min_eq_right (by omega), nat_testBit_high n i hn (by omega),
        nat_testBit_high n 31 hn (Nat.le_refl _)]

theorem int_testBit_ofU32 (n i : Nat) :
    Int.testBit (ofU32 n) i = (n % 4294967296).testBit (min i 31) := by
  rw [int_testBit_of_isInt32 _ (isInt32_ofU32 n), toU32_ofU32]

theorem int_eq_of_testBit_eq (a b : Int) (h : ∀ i, Int.testBit a i = Int.testBit b i) :
    a = b := by
  cases a with
  | ofNat m =>
    cases b with
    | ofNat n =>
      have : m = n := Nat.eq_of_testBit_eq h
      rw [this]
    | negSucc n =>
      exfalso
      have h1 := h (m + n)
      have e1 : Int.testBit (Int.ofNat m) (m + n) = m.testBit (m + n) := rfl
      have e2 : Int.testBit (Int.negSucc n) (m + n) = !n.testBit (m + n) := rfl
      rw [e1, e2, Nat.testBit_lt_two_pow (lt_of_lt_of_le (Nat.lt_two_pow m)
        (Nat.pow_le_pow_right (by decide) (Nat.le_add_right m n))),
        Nat.testBit_lt_two_pow (lt_of_lt_of_le (Nat.lt_two_pow n)
        (Nat.pow_le_pow_right (by decide) (Nat.le_add_left n m)))] at h1
      exact absurd h1 (by decide)
  | negSucc m =>
    cases b with
    | ofNat n =>
      exfalso
      have h1 := h (m + n)
      have e1 : Int.testBit (Int.ofNat n) (m + n) = n.testBit (m + n) := rfl
      have e2 : Int.testBit (Int.negSucc m) (m + n) = !m.testBit (m + n) := rfl
      rw [e1, e2, Nat.testBit_lt_two_pow (lt_of_lt_of_le (Nat.lt_two_pow m)
        (Nat.pow_le_pow_right (by decide) (Nat.le_add_right m n))),
        Nat.testBit_lt_two_pow (lt_of_lt_of_le (Nat.lt_two_pow n)
        (Nat.pow_le_pow_right (by decide) (Nat.le_add_left n m)))] at h1
      exact absurd h1 (by decide)
    | negSucc n =>
      have : m = n := by
        apply Nat.eq_of_testBit_eq
        intro i
        have h1 := h i
        have e1 : Int.testBit (Int.negSucc m) i = !m.testBit i := rfl
        have e2 : Int.testBit (Int.negSucc n) i = !n.testBit i := rfl
        rw [e1, e2] at h1
        simpa using h1
      rw [this]

theorem toU32_lt_pow (a : Int) : toU32 a < 2 ^ 32 := by
  unfold toU32; omega

theorem and32_eq_land (a b : Int) (ha : isInt32 a) (hb : isInt32 b) :
    and32 a b = Int.land a b := by
  apply int_eq_of_testBit_eq
  intro i
  unfold and32
  rw [Int.testBit_land, int_testBit_ofU32, int_testBit_of_isInt32 a ha,
    int_testBit_of_isInt32 b hb,
    Nat.mod_eq_of_lt (Nat.and_lt_two_pow _ (toU32_lt_pow b)), Nat.testBit_and]

theorem or32_eq_lor (a b : Int) (ha : isInt32 a) (hb : isInt32 b) :
    or32 a b = Int.lor a b := by
  apply int_eq_of_testBit_eq
  intro i
  unfold or32
  rw [Int.testBit_lor, int_testBit_ofU32, int_testBit_of_isInt32 a ha,
    int_testBit_of_isInt32 b hb,
    Nat.mod_eq_of_lt (Nat.or_lt_two_pow (toU32_lt_pow a) (toU32_lt_pow b)), Nat.testBit_or]

theorem xor32_eq_xor (a b : Int) (ha : isInt32 a) (hb : isInt32 b) :
    xor32 a b = Int.xor a b := by
  apply int_eq_of_testBit_eq
  intro i
  unfold xor32
  rw [Int.testBit_lxor, int_testBit_ofU32, int_testBit_of_isInt32 a ha,
    int_testBit_of_isInt32 b hb,
    Nat.mod_eq_of_lt (Nat.xor_lt_two_pow (toU32_lt_pow a) (toU32_lt_pow b)), Nat.testBit_xor]

theorem lnot_eq (a : Int) : Int.lnot a = -a - 1 := by
  cases a with
  | ofNat n =>
    show Int.negSucc n = _
    rw [Int.negSucc_eq, Int.ofNat_eq_coe]
    omega
  | negSucc n =>
    show (n : Int) = _
    rw [Int.negSucc_eq]
    omega

theorem not32_or32_eq (a b : Int) (ha : isInt32 a) (hb : isInt32 b) :
    not32 (or32 a b) = Int.lnot (Int.lor a b) := by
  rw [not32_eq (or32 a b) (by unfold or32; exact isInt32_ofU32 _), lnot_eq,
    or32_eq_lor a b ha hb]

/-! ## R-type instructions -/

theorem step_r_text_eq (m : Machine) (op : List Char) (rd rs1 rs2 : Fin 32)
    (hop : op ∈ r_type_op) :
    step m (r_text op rd rs1 rs2) =
      (let a := m.registers.r rs1
       let b := m.registers.r rs2
       let write := fun (v : Int) => some { m with registers := set_reg m.registers rd v }
       if op = "add".toList then write (add32 a b)
       else if op = "sub".toList then write (sub32 a b)
       else if op = "and".toList then write (and32 a b)
       else if op = "or".toList then write (or32 a b)
       else if op = "xor".toList then write (xor32 a b)
       else if op = "nor".toList then write (not32 (or32 a b))
       else if op = "slt".toList then write (if a < b then 1 else 0)
       else if op = "sll".toList then write (shl32 a (toU32 (and32 31 b)))
       else if op = "sra".toList then write (sar32 a (toU32 (and32 31 b)))
       else some m).map clear_x0 := by
  unfold r_text
  rw [step_r_line m _ _ hop, remove_spaces_r_operands, step_r_type_operands]

theorem clear_x0_set_reg (m : Machine) (rd : Fin 32) (v : Int) (hrd : rd ≠ 0) :
    (clear_x0 { m with registers := set_reg m.registers rd v }).registers.r rd = v := by
  simp only [clear_x0]
  rw [set_reg_other _ _ _ _ hrd, set_reg_same]

theorem shift_amount (b : Int) : toU32 (and32 31 b) = (b % 32).toNat := by
  rw [toU32_and32_31]
  unfold toU32
  omega

/-- C16: the R-type instructions. For every register file of `int` values,
every `rd ≠ 0` and all `rs1`, `rs2` in 0..31 (equal to `rd` or not), with `a`
and `b` the values of `rs1` and `rs2` before the step, `step` leaves in `rd`:
`add` `a + b` and `sub` `a - b` wrapped to 32 bits; `and`, `or`, `xor` the
bitwise and, or, exclusive or of `a` and `b`; `nor` the complement of their
bitwise or; `slt` 1 if `a < b` and 0 otherwise; `sll` `a * 2^(b & 0x1f)`
wrapped to 32 bits; `sra` the floor of `a / 2^(b & 0x1f)`. -/
theorem r_type_semantics (m : Machine) (rd rs1 rs2 : Fin 32)
    (hregs : registers_ok m.registers) (hrd : rd ≠ 0) :
    (∃ m1, step m (r_text "add".toList rd rs1 rs2) = some m1 ∧
      m1.registers.r rd = wrap32 (m.registers.r rs1 + m.registers.r rs2)) ∧
    (∃ m1, step m (r_text "sub".toList rd rs1 rs2) = some m1 ∧
      m1.registers.r rd = wrap32 (m.registers.r rs1 - m.registers.r rs2)) ∧
    (∃ m1, step m (r_text "and".toList rd rs1 rs2) = some m1 ∧
      m1.registers.r rd = Int.land (m.registers.r rs1) (m.registers.r rs2)) ∧
    (∃ m1, step m (r_text "or".toList rd rs1 rs2) = some m1 ∧
      m1.registers.r rd = Int.lor (m.registers.r rs1) (m.registers.r rs2)) ∧
    (∃ m1, step m (r_text "xor".toList rd rs1 rs2) = some m1 ∧
      m1.registers.r rd = Int.xor (m.registers.r rs1) (m.registers.r rs2)) ∧
    (∃ m1, step m (r_text "nor".toList rd rs1 rs2) = some m1 ∧
      m1.registers.r rd = Int.lnot (Int.lor (m.registers.r rs1) (m.registers.r rs2))) ∧
    (∃ m1, step m (r_text "slt".toList rd rs1 rs2) = some m1 ∧
      m1.registers.r rd = if m.registers.r rs1 < m.registers.r rs2 then 1 else 0) ∧
    (∃ m1, step m (r_text "sll".toList rd rs1 rs2) = some m1 ∧
      m1.registers.r rd
        = wrap32 (m.registers.r rs1 * 2 ^ (m.registers.r rs2 % 32).toNat)) ∧
    (∃ m1, step m (r_text "sra".toList rd rs1 rs2) = some m1 ∧
      m1.registers.r rd
        = Int.fdiv (m.registers.r rs1) (2 ^ (m.registers.r rs2 % 32).toNat)) := by
  have ha := hregs rs1
  have hb := hregs rs2
  refine ⟨?_, ?_, ?_, ?_, ?_, ?_, ?_, ?_, ?_⟩
  · have h := step_r_text_eq m "add".toList rd rs1 rs2 (by decide)
    simp only [if_true, Option.map_some'] at h
    exact ⟨_, h, clear_x0_set_reg m rd _ hrd⟩
  · have h := step_r_text_eq m "sub".toList rd rs1 rs2 (by decide)
    rw [if_neg (by decide)] at h
    simp only [if_true, Option.map_some'] at h
    exact ⟨_, h, clear_x0_set_reg m rd _ hrd⟩
  · have h := step_r_text_eq m "and".toList rd rs1 rs2 (by decide)
    rw [if_neg (by decide), if_neg (by decide)] at h
    simp only [if_true, Option.map_some'] at h
    exact ⟨_, h, (clear_x0_set_reg m rd _ hrd).trans (and32_eq_land _ _ ha hb)⟩
  · have h := step_r_text_eq m "or".toList rd rs1 rs2 (by decide)
    rw [if_neg (by decide), if_neg (by decide), if_neg (by decide)] at h
    simp only [if_true, Option.map_some'] at h
    exact ⟨_, h, (clear_x0_set_reg m rd _ hrd).trans (or32_eq_lor _ _ ha hb)⟩
  · have h := step_r_text_eq m "xor".toList rd rs1 rs2 (by decide)
    rw [if_neg (by decide), if_neg (by decide), if_neg (by decide), if_neg (by decide)] at h
    simp only [if_true, Option.map_some'] at h
    exact ⟨_, h, (clear_x0_set_reg m rd _ hrd).trans (xor32_eq_xor _ _ ha hb)⟩
  · have h := step_r_text_eq m "nor".toList rd rs1 rs2 (by decide)
    rw [if_neg (by decide), if_neg (by decide), if_neg (by decide), if_neg (by decide),
      if_neg (by decide)] at h
    simp only [if_true, Option.map_some'] at h
    exact ⟨_, h, (clear_x0_set_reg m rd _ hrd).trans (not32_or32_eq _ _ ha hb)⟩
  · have h := step_r_text_eq m "slt".toList rd rs1 rs2 (by decide)
    rw [if_neg (by decide), if_neg (by decide), if_neg (by decide), if_neg (by decide),
      if_neg (by decide), if_neg (by decide)] at h
    simp only [if_true, Option.map_some'] at h
    exact ⟨_, h, clear_x0_set_reg m rd _ hrd⟩
  · refine ⟨_, step_sll_text m rd rs1 rs2, ?_⟩
    rw [clear_x0_set_reg m rd _ hrd, shl32_eq_wrap32, shift_amount]
  · refine ⟨_, step_sra_text m rd rs1 rs2, ?_⟩
    rw [clear_x0_set_reg m rd _ hrd, sar32_eq, shift_amount, Int.fdiv_eq_ediv]
    · push_cast
      rfl
    · positivity

/-- Witness of C16: `x1 = -8`, `x2 = 35` (shift amount 3), destination `x1`. -/
theorem r_type_semantics_witness :
    (∃ m1, step machine_shift (r_text "sra".toList 1 1 2) = some m1 ∧
      m1.registers.r 1 = -1) ∧
    (∃ m1, step machine_shift (r_text "sll".toList 1 1 2) = some m1 ∧
      m1.registers.r 1 = -64) :=
  ⟨(r_type_semantics machine_shift 1 1 2
      (by intro i; unfold machine_shift isInt32; simp only; split_ifs <;> decide)
      (by decide)).2.2.2.2.2.2.2.2,
   (r_type_semantics machine_shift 1 1 2
      (by intro i; unfold machine_shift isInt32; simp only; split_ifs <;> decide)
      (by decide)).2.2.2.2.2.2.2.1⟩

/-! ## Load upper immediate -/

/-- C17: `lui x<rd>,<imm>` with `rd ≠ 0` leaves in `rd` the immediate read by
`get_immediate` times 4096, wrapped to 32 bits; its low 12 bits are zero. -/
theorem lui_semantics (m : Machine) (rd : Fin 32) (imm : List Char) (hrd : rd ≠ 0) :
    ∃ m1, step m (u_text rd imm) = some m1 ∧
      m1.registers.r rd = wrap32 (imm_value imm * 4096) ∧
      m1.registers.r rd % 4096 = 0 := by
  have hv : shl32 (imm_value imm) 12 = wrap32 (imm_value imm * 4096) := by
    rw [shl32_eq_wrap32]
    norm_num
  refine ⟨_, step_u_text_eq m rd imm, ?_, ?_⟩
  · rw [clear_x0_set_reg m rd _ hrd, hv]
  · rw [clear_x0_set_reg m rd _ hrd, hv]
    unfold wrap32 ofU32 toU32
    split <;> omega

/-- Witness of C17: `lui x5,0xfffff` leaves `-4096` in `x5`. -/
theorem lui_semantics_witness :
    ∃ m1, step (init zero_registers) (u_text 5 "0xfffff".toList) = some m1 ∧
      m1.registers.r 5 = -4096 ∧ m1.registers.r 5 % 4096 = 0 :=
  lui_semantics (init zero_registers) 5 "0xfffff".toList (by decide)

/-! ## The shape of a step -/

theorem step_r_text_shape (m : Machine) (op : List Char) (rd rs1 rs2 : Fin 32)
    (hop : op ∈ r_type_op) :
    ∃ v, step m (r_text op rd rs1 rs2)
      = some (clear_x0 { m with registers := set_reg m.registers rd v }) := by
  rw [step_r_text_eq m op rd rs1 rs2 hop]
  simp only
  by_cases h1 : op = "add".toList
  · rw [if_pos h1]; exact ⟨_, rfl⟩
  rw [if_neg h1]
  by_cases h2 : op = "sub".toList
  · rw [if_pos h2]; exact ⟨_, rfl⟩
  rw [if_neg h2]
  by_cases h3 : op = "and".toList
  · rw [if_pos h3]; exact ⟨_, rfl⟩
  rw [if_neg h3]
  by_cases h4 : op = "or".toList
  · rw [if_pos h4]; exact ⟨_, rfl⟩
  rw [if_neg h4]
  by_cases h5 : op = "xor".toList
  · rw [if_pos h5]; exact ⟨_, rfl⟩
  rw [if_neg h5]
  by_cases h6 : op = "nor".toList
  · rw [if_pos h6]; exact ⟨_, rfl⟩
  rw [if_neg h6]
  by_cases h7 : op = "slt".toList
  · rw [if_pos h7]; exact ⟨_, rfl⟩
  rw [if_neg h7]
  by_cases h8 : op = "sll".toList
  · rw [if_pos h8]; exact ⟨_, rfl⟩
  rw [if_neg h8]
  by_cases h9 : op = "sra".toList
  · rw [if_pos h9]; exact ⟨_, rfl⟩
  rw [if_neg h9]
  exfalso
  simp only [r_type_op, List.mem_cons, List.mem_singleton, List.not_mem_nil, or_false] at hop
  rcases hop with h | h | h | h | h | h | h | h | h
  · exact h1 h
  · exact h2 h
  · exact h3 h
  · exact h4 h
  · exact h5 h
  · exact h6 h
  · exact h7 h
  · exact h8 h
  · exact h9 h

theorem step_i_text_shape (m : Machine) (op : List Char) (rd rs1 : Fin 32) (imm : List Char)
    (hop : op ∈ i_type_op) :
    ∃ v, step m (i_text op rd rs1 imm)
      = some (clear_x0 { m with registers := set_reg m.registers rd v }) := by
  unfold i_text
  rw [step_i_line m _ _ hop, remove_spaces_i_operands, step_i_type_operands]
  simp only
  by_cases h1 : op = "addi".toList
  · rw [if_pos h1]; exact ⟨_, rfl⟩
  rw [if_neg h1]
  by_cases h2 : op = "andi".toList
  · rw [if_pos h2]; exact ⟨_, rfl⟩
  rw [if_neg h2]
  by_cases h3 : op = "ori".toList
  · rw [if_pos h3]; exact ⟨_, rfl⟩
  rw [if_neg h3]
  by_cases h4 : op = "xori".toList
  · rw [if_pos h4]; exact ⟨_, rfl⟩
  rw [if_neg h4]
  by_cases h5 : op = "slti".toList
  · rw [if_pos h5]; exact ⟨_, rfl⟩
  rw [if_neg h5]
  exfalso
  simp only [i_type_op, List.mem_cons, List.mem_singleton, List.not_mem_nil, or_false] at hop
  rcases hop with h | h | h | h | h
  · exact h1 h
  · exact h2 h
  · exact h3 h
  · exact h4 h
  · exact h5 h

theorem step_lw_text_shape (m : Machine) (rd rb : Fin 32) (off : List Char)
    (hmem : memory_ok m.memory) (hoff : '(' ∉ off) :
    ∃ v, step m (mem_text "lw".toList rd off rb)
      = some (clear_x0 { m with registers := set_reg m.registers rd v }) := by
  have ha : isInt32 (add32 (m.registers.r rb) (imm_value off)) := isInt32_add32 _ _
  obtain ⟨b0, g0⟩ := memory_ok_ht_get m.memory hmem _ ha
  obtain ⟨b1, g1⟩ := memory_ok_ht_get m.memory hmem _ (isInt32_add32 _ 1)
  obtain ⟨b2, g2⟩ := memory_ok_ht_get m.memory hmem _ (isInt32_add32 _ 2)
  obtain ⟨b3, g3⟩ := memory_ok_ht_get m.memory hmem _ (isInt32_add32 _ 3)
  rw [step_lw_text m rd rb off hoff, step_lw_eq m rd _ _ _ _ _ g0 g1 g2 g3]
  exact ⟨_, rfl⟩

theorem step_lb_text_shape (m : Machine) (rd rb : Fin 32) (off : List Char)
    (hmem : memory_ok m.memory) (hoff : '(' ∉ off) :
    ∃ v, step m (mem_text "lb".toList rd off rb)
      = some (clear_x0 { m with registers := set_reg m.registers rd v }) := by
  have ha : isInt32 (add32 (m.registers.r rb) (imm_value off)) := isInt32_add32 _ _
  obtain ⟨b0, g0⟩ := memory_ok_ht_get m.memory hmem _ ha
  rw [step_lb_text m rd rb off hoff]
  simp only [step_lb, g0, reg_write_val]
  exact ⟨_, rfl⟩

theorem clear_x0_frame (m : Machine) (j : Fin 32) (hj : j ≠ 0) :
    (clear_x0 m).registers.r j = m.registers.r j := by
  simp only [clear_x0]
  exact set_reg_other _ _ _ _ hj

theorem clear_x0_set_reg_frame (m : Machine) (rd j : Fin 32) (v : Int) (hj : j ≠ 0)
    (hrd : j ≠ rd) :
    (clear_x0 { m with registers := set_reg m.registers rd v }).registers.r j
      = m.registers.r j := by
  rw [clear_x0_frame _ j hj]
  exact set_reg_other _ _ _ _ hrd

theorem ht_size_ht_add_le (t t1 : hashtable) (k v : Int) (h : ht_add t k v = some t1) :
    ht_size t1 ≤ ht_size t + 1 := by
  obtain ⟨i, l, hh, hb, hi, rfl⟩ := ht_add_inv t t1 k v h
  simp only [ht_size]
  split
  · exact Nat.mod_le _ _
  · exact Nat.le_succ _

/-- The four `ht_add` of `sw` on a memory of 256 buckets leave every other
address as it was and add at most 4 to the size. -/
theorem step_sw_frame (m : Machine) (rs : Fin 32) (a : Int) (hmem : memory_ok m.memory)
    (ha : isInt32 a) :
    ∃ t4, step_sw m rs.val a = some { m with memory := t4 } ∧ memory_ok t4 ∧
      ht_size t4 ≤ ht_size m.memory + 4 ∧
      ∀ k, toU32 k ≠ toU32 a → toU32 k ≠ toU32 (add32 a 1) →
        toU32 k ≠ toU32 (add32 a 2) → toU32 k ≠ toU32 (add32 a 3) →
        ht_get t4 k = ht_get m.memory k := by
  obtain ⟨t1, e1, ok1⟩ := memory_ok_ht_add m.memory hmem a
    (and32 (m.registers.r rs) 255) ha
  obtain ⟨t2, e2, ok2⟩ := memory_ok_ht_add t1 ok1 (add32 a 1)
    (and32 (sar32 (m.registers.r rs) 8) 255) (isInt32_add32 _ _)
  obtain ⟨t3, e3, ok3⟩ := memory_ok_ht_add t2 ok2 (add32 a 2)
    (and32 (sar32 (m.registers.r rs) 16) 255) (isInt32_add32 _ _)
  obtain ⟨t4, e4, ok4⟩ := memory_ok_ht_add t3 ok3 (add32 a 3)
    (and32 (sar32 (m.registers.r rs) 24) 255) (isInt32_add32 _ _)
  refine ⟨t4, ?_, ok4, ?_, ?_⟩
  · simp only [step_sw, reg_read_val, e1, e2, e3, e4]
  · have s1 := ht_size_ht_add_le _ _ _ _ e1
    have s2 := ht_size_ht_add_le _ _ _ _ e2
    have s3 := ht_size_ht_add_le _ _ _ _ e3
    have s4 := ht_size_ht_add_le _ _ _ _ e4
    omega
  · intro k k0 k1 k2 k3
    rw [ht_get_ht_add_other t3 t4 _ _ _ e4 k3, ht_get_ht_add_other t2 t3 _ _ _ e3 k2,
      ht_get_ht_add_other t1 t2 _ _ _ e2 k1, ht_get_ht_add_other _ t1 _ _ _ e1 k0]

theorem toU32_ne_of_ne {a b : Int} (ha : isInt32 a) (hb : isInt32 b) (h : a ≠ b) :
    toU32 a ≠ toU32 b := fun e => h (toU32_inj ha hb e)

/-- The `ht_add` of `sb` on a memory of 256 buckets: it stores the low byte of
the base register, leaves every other address as it was and adds at most 1 to
the size. -/
theorem step_sb_frame (m : Machine) (rb : Fin 32) (a : Int) (hmem : memory_ok m.memory)
    (ha : isInt32 a) :
    ∃ t1, step_sb m rb.val a = some { m with memory := t1 } ∧ memory_ok t1 ∧
      ht_get t1 a = some (and32 (m.registers.r rb) 255) ∧
      ht_size t1 ≤ ht_size m.memory + 1 ∧
      ∀ k, toU32 k ≠ toU32 a → ht_get t1 k = ht_get m.memory k := by
  obtain ⟨t1, e1, ok1⟩ := memory_ok_ht_add m.memory hmem a
    (and32 (m.registers.r rb) 255) ha
  refine ⟨t1, ?_, ok1, ht_get_ht_add_same _ _ _ _ e1, ht_size_ht_add_le _ _ _ _ e1, ?_⟩
  · simp only [step_sb, reg_read_val, e1, Option.map_some']
  · intro k hk
    exact ht_get_ht_add_other _ t1 _ _ _ e1 hk

theorem step_sw_text_shape (m : Machine) (rs rb : Fin 32) (off : List Char)
    (hmem : memory_ok m.memory) (hoff : '(' ∉ off) :
    ∃ t4, step m (mem_text "sw".toList rs off rb) = some (clear_x0 { m with memory := t4 }) ∧
      ht_size t4 ≤ ht_size m.memory + 4 ∧
      ∀ k, isInt32 k → k ≠ add32 (m.registers.r rb) (imm_value off) →
        k ≠ add32 (add32 (m.registers.r rb) (imm_value off)) 1 →
        k ≠ add32 (add32 (m.registers.r rb) (imm_value off)) 2 →
        k ≠ add32 (add32 (m.registers.r rb) (imm_value off)) 3 →
        ht_get t4 k = ht_get m.memory k := by
  obtain ⟨t4, hsw, _, hsize, hframe⟩ :=
    step_sw_frame m rs (add32 (m.registers.r rb) (imm_value off)) hmem (isInt32_add32 _ _)
  refine ⟨t4, ?_, hsize, ?_⟩
  · rw [step_sw_text m rs rb off hoff, hsw]
    rfl
  · intro k hk k0 k1 k2 k3
    exact hframe k (toU32_ne_of_ne hk (isInt32_add32 _ _) k0)
      (toU32_ne_of_ne hk (isInt32_add32 _ _) k1) (toU32_ne_of_ne hk (isInt32_add32 _ _) k2)
      (toU32_ne_of_ne hk (isInt32_add32 _ _) k3)

theorem step_sb_text_shape (m : Machine) (ra rb : Fin 32) (off : List Char)
    (hmem : memory_ok m.memory) (hoff : '(' ∉ off) :
    ∃ t1, step m (mem_text "sb".toList ra off rb) = some (clear_x0 { m with memory := t1 }) ∧
      ht_get t1 (add32 (m.registers.r rb) (imm_value off))
        = some (and32 (m.registers.r rb) 255) ∧
      ht_size t1 ≤ ht_size m.memory + 1 ∧
      ∀ k, isInt32 k → k ≠ add32 (m.registers.r rb) (imm_value off) →
        ht_get t1 k = ht_get m.memory k := by
  obtain ⟨t1, hsb, _, hget, hsize, hframe⟩ :=
    step_sb_frame m rb (add32 (m.registers.r rb) (imm_value off)) hmem (isInt32_add32 _ _)
  refine ⟨t1, ?_, hget, hsize, ?_⟩
  · rw [step_sb_text m ra rb off hoff, hsb]
    rfl
  · intro k hk k0
    exact hframe k (toU32_ne_of_ne hk (isInt32_add32 _ _) k0)

/-! ## Byte store -/

/-- C12: `sb x<ra>,<off>(x<rb>)` stores at the address `value(rb) + off` the
low 8 bits of the value of the base register `rb` (whatever `ra` is and
holds), and leaves every other memory address unchanged. -/
theorem sb_stores_base_byte (m : Machine) (ra rb : Fin 32) (off : List Char)
    (hmem : memory_ok m.memory) (hoff : '(' ∉ off) :
    ∃ m1, step m (mem_text "sb".toList ra off rb) = some m1 ∧
      ht_get m1.memory (add32 (m.registers.r rb) (imm_value off))
        = some (m.registers.r rb % 256) ∧
      ∀ k, isInt32 k → k ≠ add32 (m.registers.r rb) (imm_value off) →
        ht_get m1.memory k = ht_get m.memory k := by
  obtain ⟨t1, hstep, hget, _, hframe⟩ := step_sb_text_shape m ra rb off hmem hoff
  rw [and32_255] at hget
  exact ⟨_, hstep, hget, hframe⟩

/-- Witness of C12: with `x1 = 0x1234` and 99 in every other register,
`sb x2,4(x1)` stores `0x34 = 52` at address 4664, not 99. -/
theorem sb_stores_base_byte_witness :
    ∃ m1, step machine_sb (mem_text "sb".toList 2 "4".toList 1) = some m1 ∧
      ht_get m1.memory 4664 = some 52 ∧
      ∀ k, isInt32 k → k ≠ 4664 → ht_get m1.memory k = ht_get machine_sb.memory k :=
  sb_stores_base_byte machine_sb 2 1 "4".toList memory_ok_init (by decide)

/-! ## Frames -/

/-- C19: register frame. On a supported instruction with register operands in
0..31, `step` changes no register other than the destination `rd` and register
0 when the instruction is R-type, I-type, `lui`, `lw` or `lb`, and no register
other than register 0 when it is `sw` or `sb`. -/
theorem register_frame :
    (∀ (m : Machine) (op : List Char) (rd rs1 rs2 : Fin 32), op ∈ r_type_op →
      ∃ m1, step m (r_text op rd rs1 rs2) = some m1 ∧
        ∀ j, j ≠ rd → j ≠ 0 → m1.registers.r j = m.registers.r j) ∧
    (∀ (m : Machine) (op : List Char) (rd rs1 : Fin 32) (imm : List Char), op ∈ i_type_op →
      ∃ m1, step m (i_text op rd rs1 imm) = some m1 ∧
        ∀ j, j ≠ rd → j ≠ 0 → m1.registers.r j = m.registers.r j) ∧
    (∀ (m : Machine) (rd : Fin 32) (imm : List Char),
      ∃ m1, step m (u_text rd imm) = some m1 ∧
        ∀ j, j ≠ rd → j ≠ 0 → m1.registers.r j = m.registers.r j) ∧
    (∀ (m : Machine) (op : List Char) (rd rb : Fin 32) (off : List Char),
      op = "lw".toList ∨ op = "lb".toList → memory_ok m.memory → '(' ∉ off →
      ∃ m1, step m (mem_text op rd off rb) = some m1 ∧
        ∀ j, j ≠ rd → j ≠ 0 → m1.registers.r j = m.registers.r j) ∧
    (∀ (m : Machine) (op : List Char) (r1 rb : Fin 32) (off : List Char),
      op = "sw".toList ∨ op = "sb".toList → memory_ok m.memory → '(' ∉ off →
      ∃ m1, step m (mem_text op r1 off rb) = some m1 ∧
        ∀ j, j ≠ 0 → m1.registers.r j = m.registers.r j) := by
  refine ⟨?_, ?_, ?_, ?_, ?_⟩
  · intro m op rd rs1 rs2 hop
    obtain ⟨v, h⟩ := step_r_text_shape m op rd rs1 rs2 hop
    exact ⟨_, h, fun j hrd hj => clear_x0_set_reg_frame m rd j v hj hrd⟩
  · intro m op rd rs1 imm hop
    obtain ⟨v, h⟩ := step_i_text_shape m op rd rs1 imm hop
    exact ⟨_, h, fun j hrd hj => clear_x0_set_reg_frame m rd j v hj hrd⟩
  · intro m rd imm
    exact ⟨_, step_u_text_eq m rd imm, fun j hrd hj => clear_x0_set_reg_frame m rd j _ hj hrd⟩
  · intro m op rd rb off hop hmem hoff
    rcases hop with rfl | rfl
    · obtain ⟨v, h⟩ := step_lw_text_shape m rd rb off hmem hoff
      exact ⟨_, h, fun j hrd hj => clear_x0_set_reg_frame m rd j v hj hrd⟩
    · obtain ⟨v, h⟩ := step_lb_text_shape m rd rb off hmem hoff
      exact ⟨_, h, fun j hrd hj => clear_x0_set_reg_frame m rd j v hj hrd⟩
  · intro m op r1 rb off hop hmem hoff
    rcases hop with rfl | rfl
    · obtain ⟨t, h, _⟩ := step_sw_text_shape m r1 rb off hmem hoff
      exact ⟨_, h, fun j hj => clear_x0_frame _ j hj⟩
    · obtain ⟨t, h, _⟩ := step_sb_text_shape m r1 rb off hmem hoff
      exact ⟨_, h, fun j hj => clear_x0_frame _ j hj⟩

/-- Witness of C19: `sw x2,4(x1)` and `lw x2,4(x1)` on the machine with
`x1 = 0x1234`. -/
theorem register_frame_witness :
    (∃ m1, step machine_sb (mem_text "sw".toList 2 "4".toList 1) = some m1 ∧
      ∀ j, j ≠ 0 → m1.registers.r j = machine_sb.registers.r j) ∧
    (∃ m1, step machine_sb (mem_text "lw".toList 2 "4".toList 1) = some m1 ∧
      ∀ j, j ≠ 2 → j ≠ 0 → m1.registers.r j = machine_sb.registers.r j) ∧
    (∃ m1, step machine_sb (r_text "xor".toList 3 1 2) = some m1 ∧
      ∀ j, j ≠ 3 → j ≠ 0 → m1.registers.r j = machine_sb.registers.r j) :=
  ⟨register_frame.2.2.2.2 machine_sb "sw".toList 2 1 "4".toList (Or.inl rfl) memory_ok_init
     (by decide),
   register_frame.2.2.2.1 machine_sb "lw".toList 2 1 "4".toList (Or.inl rfl) memory_ok_init
     (by decide),
   register_frame.1 machine_sb "xor".toList 3 1 2 (by decide)⟩

/-- C20: memory frame. `step` on an R-type, I-type, `lui`, `lw` or `lb`
instruction leaves the memory as it is: `ht_get` of every address and
`ht_size` are unchanged. `sw` changes `ht_get` only at the four addresses from
`address` on and adds at most 4 to `ht_size`; `sb` changes `ht_get` only at
`address` and adds at most 1 to `ht_size`. -/
theorem memory_frame :
    (∀ (m : Machine) (op : List Char) (rd rs1 rs2 : Fin 32), op ∈ r_type_op →
      ∃ m1, step m (r_text op rd rs1 rs2) = some m1 ∧
        (∀ a, ht_get m1.memory a = ht_get m.memory a) ∧
        ht_size m1.memory = ht_size m.memory) ∧
    (∀ (m : Machine) (op : List Char) (rd rs1 : Fin 32) (imm : List Char), op ∈ i_type_op →
      ∃ m1, step m (i_text op rd rs1 imm) = some m1 ∧
        (∀ a, ht_get m1.memory a = ht_get m.memory a) ∧
        ht_size m1.memory = ht_size m.memory) ∧
    (∀ (m : Machine) (rd : Fin 32) (imm : List Char),
      ∃ m1, step m (u_text rd imm) = some m1 ∧
        (∀ a, ht_get m1.memory a = ht_get m.memory a) ∧
        ht_size m1.memory = ht_size m.memory) ∧
    (∀ (m : Machine) (op : List Char) (rd rb : Fin 32) (off : List Char),
      op = "lw".toList ∨ op = "lb".toList → memory_ok m.memory → '(' ∉ off →
      ∃ m1, step m (mem_text op rd off rb) = some m1 ∧
        (∀ a, ht_get m1.memory a = ht_get m.memory a) ∧
        ht_size m1.memory = ht_size m.memory) ∧
    (∀ (m : Machine) (rs rb : Fin 32) (off : List Char), memory_ok m.memory → '(' ∉ off →
      ∃ m1, step m (mem_text "sw".toList rs off rb) = some m1 ∧
        (∀ k, isInt32 k → k ≠ add32 (m.registers.r rb) (imm_value off) →
          k ≠ add32 (add32 (m.registers.r rb) (imm_value off)) 1 →
          k ≠ add32 (add32 (m.registers.r rb) (imm_value off)) 2 →
          k ≠ add32 (add32 (m.registers.r rb) (imm_value off)) 3 →
          ht_get m1.memory k = ht_get m.memory k) ∧
        ht_size m1.memory ≤ ht_size m.memory + 4) ∧
    (∀ (m : Machine) (ra rb : Fin 32) (off : List Char), memory_ok m.memory → '(' ∉ off →
      ∃ m1, step m (mem_text "sb".toList ra off rb) = some m1 ∧
        (∀ k, isInt32 k → k ≠ add32 (m.registers.r rb) (imm_value off) →
          ht_get m1.memory k = ht_get m.memory k) ∧
        ht_size m1.memory ≤ ht_size m.memory + 1) := by
  refine ⟨?_, ?_, ?_, ?_, ?_, ?_⟩
  · intro m op rd rs1 rs2 hop
    obtain ⟨v, h⟩ := step_r_text_shape m op rd rs1 rs2 hop
    exact ⟨_, h, fun _ => rfl, rfl⟩
  · intro m op rd rs1 imm hop
    obtain ⟨v, h⟩ := step_i_text_shape m op rd rs1 imm hop
    exact ⟨_, h, fun _ => rfl, rfl⟩
  · intro m rd imm
    exact ⟨_, step_u_text_eq m rd imm, fun _ => rfl, rfl⟩
  · intro m op rd rb off hop hmem hoff
    rcases hop with rfl | rfl
    · obtain ⟨v, h⟩ := step_lw_text_shape m rd rb off hmem hoff
      exact ⟨_, h, fun _ => rfl, rfl⟩
    · obtain ⟨v, h⟩ := step_lb_text_shape m rd rb off hmem hoff
      exact ⟨_, h, fun _ => rfl, rfl⟩
  · intro m rs rb off hmem hoff
    obtain ⟨t, h, hsize, hframe⟩ := step_sw_text_shape m rs rb off hmem hoff
    exact ⟨_, h, hframe, hsize⟩
  · intro m ra rb off hmem hoff
    obtain ⟨t, h, _, hsize, hframe⟩ := step_sb_text_shape m ra rb off hmem hoff
    exact ⟨_, h, hframe, hsize⟩

/-- Witness of C20: `sw x2,4(x1)` and `lb x2,4(x1)` on the machine with
`x1 = 0x1234`. -/
theorem memory_frame_witness :
    (∃ m1, step machine_sb (mem_text "sw".toList 2 "4".toList 1) = some m1 ∧
      (∀ k, isInt32 k → k ≠ 4664 → k ≠ 4665 → k ≠ 4666 → k ≠ 4667 →
        ht_get m1.memory k = ht_get machine_sb.memory k) ∧
      ht_size m1.memory ≤ ht_size machine_sb.memory + 4) ∧
    (∃ m1, step machine_sb (mem_text "lb".toList 2 "4".toList 1) = some m1 ∧
      (∀ a, ht_get m1.memory a = ht_get machine_sb.memory a) ∧
      ht_size m1.memory = ht_size machine_sb.memory) :=
  ⟨memory_frame.2.2.2.2.1 machine_sb 2 1 "4".toList memory_ok_init (by decide),
   memory_frame.2.2.2.1 machine_sb "lb".toList 2 1 "4".toList (Or.inr rfl) memory_ok_init
     (by decide)⟩

/-! ## Reachable states: the memory holds bytes -/

theorem ll_get_loop_byte (k : Nat) (nodes : List linkedlist_node)
    (h : ∀ node ∈ nodes, 0 ≤ node.value ∧ node.value ≤ 255) :
    0 ≤ ll_get_loop k nodes ∧ ll_get_loop k nodes ≤ 255 := by
  induction nodes with
  | nil => simp [ll_get_loop]
  | cons node next ih =>
    unfold ll_get_loop
    split
    · exact h node (List.mem_cons_self _ _)
    · exact ih (fun x hx => h x (List.mem_cons_of_mem _ hx))

theorem ll_add_loop_byte (k : Nat) (v : Int) (hv : 0 ≤ v ∧ v ≤ 255)
    (nodes : List linkedlist_node) :
    ∀ nodes1, ll_add_loop k v nodes = some nodes1 →
      (∀ node ∈ nodes, 0 ≤ node.value ∧ node.value ≤ 255) →
      ∀ node ∈ nodes1, 0 ≤ node.value ∧ node.value ≤ 255 := by
  induction nodes with
  | nil => intro nodes1 h; simp [ll_add_loop] at h
  | cons x next ih =>
    intro nodes1 h hb node hn
    by_cases hk : x.key = k
    · simp [ll_add_loop, hk] at h
      subst h
      rcases List.mem_cons.mp hn with e | e
      · subst e
        exact hv
      · exact hb node (List.mem_cons_of_mem _ e)
    · simp only [ll_add_loop, hk, if_false, Option.map_eq_some'] at h
      obtain ⟨rest, hrest, rfl⟩ := h
      rcases List.mem_cons.mp hn with e | e
      · subst e
        exact hb _ (List.mem_cons_self _ _)
      · exact ih rest hrest (fun y hy => hb y (List.mem_cons_of_mem _ hy)) node e

theorem ll_add_byte (l : linkedlist) (k v : Int) (hv : 0 ≤ v ∧ v ≤ 255)
    (h : ∀ node ∈ l.first, 0 ≤ node.value ∧ node.value ≤ 255) :
    ∀ node ∈ (ll_add l k v).first, 0 ≤ node.value ∧ node.value ≤ 255 := by
  unfold ll_add
  cases e : ll_add_loop (toU32 k) v l.first with
  | none =>
    intro node hn
    rcases List.mem_cons.mp hn with e1 | e1
    · subst e1
      exact hv
    · exact h node e1
  | some nodes => exact ll_add_loop_byte _ _ hv _ _ e h

theorem bytes_only_ht_add (t t1 : hashtable) (k v : Int) (hv : 0 ≤ v ∧ v ≤ 255)
    (h : bytes_only t) (e : ht_add t k v = some t1) : bytes_only t1 := by
  obtain ⟨i, l, hh, hb, hi, rfl⟩ := ht_add_inv t t1 k v e
  have hl : l ∈ t.buckets := by
    unfold bucket_at at hb
    simp only [hi, if_true] at hb
    obtain ⟨hlt, hget⟩ := List.getElem?_eq_some_iff.mp hb
    rw [← hget]
    exact List.getElem_mem _
  intro l1 hl1
  simp only at hl1
  rcases List.mem_or_eq_of_mem_set hl1 with h1 | h1
  · exact h l1 h1
  · subst h1
    exact ll_add_byte l k v hv (h l hl)

theorem bytes_only_ht_init (n : Int) : bytes_only (ht_init n) := by
  intro l hl node hn
  have := (List.mem_replicate.mp hl).2
  subst this
  simp [ll_init] at hn

theorem and32_255_byte (x : Int) : 0 ≤ and32 x 255 ∧ and32 x 255 ≤ 255 := by
  rw [and32_255]
  omega

theorem ht_get_byte (t : hashtable) (a b : Int) (h : bytes_only t) (e : ht_get t a = some b) :
    0 ≤ b ∧ b ≤ 255 := by
  unfold ht_get at e
  split at e
  · exact absurd e (by simp)
  · rename_i index hh
    split at e
    · exact absurd e (by simp)
    · rename_i list hb
      have hl : list ∈ t.buckets := by
        unfold bucket_at at hb
        split at hb
        · obtain ⟨hlt, hget⟩ := List.getElem?_eq_some_iff.mp hb
          rw [← hget]
          exact List.getElem_mem _
        · exact absurd hb (by simp)
      have := Option.some.inj e
      rw [← this]
      exact ll_get_loop_byte _ _ (h list hl)

/-- The state of the memory that every `step` keeps: 256 buckets, bytes only. -/
theorem memory_inv_ht_add (t t1 : hashtable) (k x : Int)
    (h : memory_ok t ∧ bytes_only t) (e : ht_add t k (and32 x 255) = some t1) :
    memory_ok t1 ∧ bytes_only t1 := by
  obtain ⟨h1, h2⟩ := ht_add_num_buckets t t1 k _ e
  exact ⟨⟨by rw [h1]; exact h.1.1, by rw [h2]; exact h.1.2⟩,
    bytes_only_ht_add t t1 k _ (and32_255_byte x) h.2 e⟩

theorem write_memory (m m1 : Machine) (i v : Int)
    (h : (reg_write m.registers i v).map (fun regs => { m with registers := regs }) = some m1) :
    m1.memory = m.memory := by
  obtain ⟨regs, _, rfl⟩ := Option.map_eq_some'.mp h
  rfl

set_option maxHeartbeats 2000000 in
theorem step_r_type_memory (m m1 : Machine) (op s : List Char) (behind : Option (List Char))
    (h : step_r_type m op s behind = some m1) : m1.memory = m.memory := by
  unfold step_r_type at h
  simp only at h
  split at h
  · split at h
    · split_ifs at h
      all_goals first
        | exact write_memory m m1 _ _ h
        | (cases h; rfl)
    · exact absurd h (by simp)
  · exact absurd h (by simp)

set_option maxHeartbeats 2000000 in
theorem step_i_type_memory (m m1 : Machine) (op s : List Char) (behind : Option (List Char))
    (h : step_i_type m op s behind = some m1) : m1.memory = m.memory := by
  unfold step_i_type at h
  simp only at h
  split at h
  · split at h
    · split_ifs at h
      all_goals first
        | exact write_memory m m1 _ _ h
        | (cases h; rfl)
    · exact absurd h (by simp)
  · exact absurd h (by simp)

theorem step_u_type_memory (m m1 : Machine) (s : List Char) (behind : Option (List Char))
    (h : step_u_type m s behind = some m1) : m1.memory = m.memory := by
  unfold step_u_type at h
  simp only at h
  split at h
  · exact write_memory m m1 _ _ h
  · exact absurd h (by simp)

theorem step_lw_memory (m m1 : Machine) (reg1 a : Int) (h : step_lw m reg1 a = some m1) :
    m1.memory = m.memory := by
  unfold step_lw at h
  split at h
  · exact write_memory m m1 _ _ h
  · exact absurd h (by simp)

theorem step_lb_memory (m m1 : Machine) (reg1 a : Int) (h : step_lb m reg1 a = some m1) :
    m1.memory = m.memory := by
  unfold step_lb at h
  split at h
  · exact write_memory m m1 _ _ h
  · exact absurd h (by simp)

theorem step_sw_memory_inv (m m1 : Machine) (reg1 a : Int)
    (hinv : memory_ok m.memory ∧ bytes_only m.memory) (h : step_sw m reg1 a = some m1) :
    memory_ok m1.memory ∧ bytes_only m1.memory := by
  unfold step_sw at h
  split at h
  · rename_i word _
    split at h
    · rename_i t1 e1
      split at h
      · rename_i t2 e2
        split at h
        · rename_i t3 e3
          split at h
          · rename_i t4 e4
            have := Option.some.inj h
            subst this
            have i1 := memory_inv_ht_add m.memory t1 a word hinv e1
            have i2 := memory_inv_ht_add t1 t2 _ (sar32 word 8) i1 e2
            have i3 := memory_inv_ht_add t2 t3 _ (sar32 word 16) i2 e3
            exact memory_inv_ht_add t3 t4 _ (sar32 word 24) i3 e4
          · exact absurd h (by simp)
        · exact absurd h (by simp)
      · exact absurd h (by simp)
    · exact absurd h (by simp)
  · exact absurd h (by simp)

theorem step_sb_memory_inv (m m1 : Machine) (reg2 a : Int)
    (hinv : memory_ok m.memory ∧ bytes_only m.memory) (h : step_sb m reg2 a = some m1) :
    memory_ok m1.memory ∧ bytes_only m1.memory := by
  unfold step_sb at h
  split at h
  · obtain ⟨t, e, rfl⟩ := Option.map_eq_some'.mp h
    exact memory_inv_ht_add _ _ _ _ hinv e
  · exact absurd h (by simp)

set_option maxHeartbeats 2000000 in
theorem step_mem_type_memory_inv (m m1 : Machine) (op s : List Char)
    (behind : Option (List Char)) (hinv : memory_ok m.memory ∧ bytes_only m.memory)
    (h : step_mem_type m op s behind = some m1) :
    memory_ok m1.memory ∧ bytes_only m1.memory := by
  unfold step_mem_type at h
  simp only at h
  split at h
  · split at h
    · split_ifs at h
      · rw [step_lw_memory m m1 _ _ h]; exact hinv
      · rw [step_lb_memory m m1 _ _ h]; exact hinv
      · exact step_sw_memory_inv m m1 _ _ hinv h
      · exact step_sb_memory_inv m m1 _ _ hinv h
      · cases h; exact hinv
    · exact absurd h (by simp)
  · exact absurd h (by simp)

theorem step_memory_inv (m m1 : Machine) (line : List Char) (beyond : Option (List Char))
    (hinv : memory_ok m.memory ∧ bytes_only m.memory)
    (h : step_in_buffer m line beyond = some m1) :
    memory_ok m1.memory ∧ bytes_only m1.memory := by
  unfold step_in_buffer at h
  simp only at h
  split at h
  · exact absurd h (by simp)
  · rename_i op hop
    by_cases hu : get_op_type op = UNKNOWN_TYPE
    · rw [if_pos hu] at h
      cases h
      exact hinv
    · rw [if_neg hu] at h
      split at h
      · exact absurd h (by simp)
      · obtain ⟨x, hx, rfl⟩ := Option.map_eq_some'.mp h
        have hc : (clear_x0 x).memory = x.memory := rfl
        rw [hc]
        split_ifs at hx
        · rw [step_r_type_memory m x _ _ _ hx]; exact hinv
        · rw [step_i_type_memory m x _ _ _ hx]; exact hinv
        · exact step_mem_type_memory_inv m x _ _ _ hinv hx
        · rw [step_u_type_memory m x _ _ hx]; exact hinv
        · cases hx; exact hinv

theorem run_memory_inv (calls : List (List Char × Option (List Char))) :
    ∀ (m m1 : Machine), memory_ok m.memory ∧ bytes_only m.memory →
      run_in_buffers m calls = some m1 → memory_ok m1.memory ∧ bytes_only m1.memory := by
  induction calls with
  | nil =>
    intro m m1 hinv h
    cases h
    exact hinv
  | cons call rest ih =>
    intro m m1 hinv h
    unfold run_in_buffers at h
    split at h
    · rename_i m0 e
      exact ih m0 m1 (step_memory_inv m m0 call.1 call.2 hinv e) h
    · exact absurd h (by simp)

theorem reachable_memory_inv (m : Machine) (h : reachable m) :
    memory_ok m.memory ∧ bytes_only m.memory := by
  obtain ⟨regs, calls, hrun⟩ := h
  exact run_memory_inv calls (init regs) m ⟨memory_ok_init, bytes_only_ht_init 256⟩ hrun

theorem run_in_buffers_none (lines : List (List Char)) :
    ∀ m : Machine, run_in_buffers m (lines.map (fun line => (line, none))) = run m lines := by
  induction lines with
  | nil => intro m; rfl
  | cons line rest ih =>
    intro m
    simp only [List.map_cons, run_in_buffers, run, step]
    cases step_in_buffer m line none with
    | none => rfl
    | some m1 => exact ih m1

theorem some_getD_of_isSome {α : Type} (o : Option α) (d : α) (h : o.isSome = true) :
    o = some (o.getD d) := by
  cases o with
  | none => exact absurd h (by simp)
  | some x => rfl

set_option maxRecDepth 100000 in
theorem reachable_machine_with_ff : reachable machine_with_ff :=
  ⟨zero_registers,
    ["addi x1,x0,255".toList, "sb x5,0(x1)".toList].map (fun line => (line, none)),
    (run_in_buffers_none _ _).trans (some_getD_of_isSome _ _ (by decide))⟩

set_option maxRecDepth 100000 in
/-- On the line `add x5 , x 1,` the third register token is the empty end of
the string that `remove_spaces` wrote, and the digits read for it are the `1`
left behind the terminator: `x5` receives `x1 + x1`. -/
theorem step_empty_last_token :
    (step machine_sb "add x5 , x 1,".toList).map (fun m => m.registers.r 5)
      = some 9320 := by
  decide

set_option maxRecDepth 100000 in
/-- On the line `add x5,x1,` no space is removed, and the digits read for the
empty third token are those the buffer holds after the terminator of the
line. -/
theorem step_in_buffer_reads_beyond :
    (step_in_buffer machine_sb "add x5,x1,".toList (some "1".toList)).map
        (fun m => m.registers.r 5) = some 9320
      ∧ (step machine_sb "add x5,x1,".toList).isSome = false := by
  decide

set_option maxRecDepth 100000 in
/-- The runs behind `reachable` include lines with an empty last register
token: after `addi x1,x0,11` the line `add x5 , x 1,` returns with
`x5 = 22`. -/
theorem run_in_buffers_empty_last_token :
    (run_in_buffers (init zero_registers)
        [("addi x1,x0,11".toList, none), ("add x5 , x 1,".toList, none)]).map
      (fun m => m.registers.r 5) = some 22 := by
  decide

/-- C18: in every state reachable from `init` by `step` calls, every value
stored in the memory lies in `[0, 255]`, and `ht_get` returns a value in
`[0, 255]` for every address. -/
theorem memory_holds_bytes (m : Machine) (h : reachable m) :
    bytes_only m.memory ∧
      ∀ a, isInt32 a → ∃ b, ht_get m.memory a = some b ∧ 0 ≤ b ∧ b ≤ 255 := by
  obtain ⟨hok, hbytes⟩ := reachable_memory_inv m h
  refine ⟨hbytes, fun a ha => ?_⟩
  obtain ⟨b, hb⟩ := memory_ok_ht_get m.memory hok a ha
  exact ⟨b, hb, ht_get_byte m.memory a b hbytes hb⟩

/-- Witness of C18: the state after `addi x1,x0,255` and `sb x5,0(x1)`. -/
theorem memory_holds_bytes_witness :
    bytes_only machine_with_ff.memory ∧
      ∀ a, isInt32 a →
        ∃ b, ht_get machine_with_ff.memory a = some b ∧ 0 ≤ b ∧ b ≤ 255 :=
  memory_holds_bytes machine_with_ff reachable_machine_with_ff

/-! ## Word load -/

theorem nat_lor_shifted (i a b : Nat) (hb : b < 2 ^ i) : b ||| a * 2 ^ i = b + a * 2 ^ i := by
  rw [Nat.lor_comm, Nat.mul_comm, ← Nat.mul_add_lt_is_or hb, Nat.add_comm]

theorem int_lor_natCast (m n : Nat) : Int.lor (m : Int) (n : Int) = ((m ||| n : Nat) : Int) :=
  rfl

theorem lor_of_bytes (n0 n1 n2 n3 : Nat) (h0 : n0 < 256) (h1 : n1 < 256) (h2 : n2 < 256) :
    Int.lor (Int.lor (Int.lor (n0 : Int) ((n1 : Int) * 2 ^ 8)) ((n2 : Int) * 2 ^ 16))
        ((n3 : Int) * 2 ^ 24)
      = (n0 : Int) + n1 * 256 + n2 * 65536 + n3 * 16777216 := by
  have e1 : ((n1 : Int) * 2 ^ 8) = ((n1 * 2 ^ 8 : Nat) : Int) := by push_cast; rfl
  have e2 : ((n2 : Int) * 2 ^ 16) = ((n2 * 2 ^ 16 : Nat) : Int) := by push_cast; rfl
  have e3 : ((n3 : Int) * 2 ^ 24) = ((n3 * 2 ^ 24 : Nat) : Int) := by push_cast; rfl
  rw [e1, e2, e3, int_lor_natCast, nat_lor_shifted 8 n1 n0 (by omega), int_lor_natCast,
    nat_lor_shifted 16 n2 _ (by omega), int_lor_natCast, nat_lor_shifted 24 n3 _ (by omega)]
  push_cast
  norm_num

/-- The additive accumulation of `lw` equals the bitwise-or composition of the
specification when the four values are bytes. -/
theorem lw_word_eq_spec (b0 b1 b2 b3 : Int) (h0 : 0 ≤ b0 ∧ b0 ≤ 255)
    (h1 : 0 ≤ b1 ∧ b1 ≤ 255) (h2 : 0 ≤ b2 ∧ b2 ≤ 255) (h3 : 0 ≤ b3 ∧ b3 ≤ 255) :
    add32 (add32 (add32 (add32 0 b0) (shl32 b1 8)) (shl32 b2 16)) (shl32 b3 24)
      = lw_spec_word b0 b1 b2 b3 := by
  obtain ⟨n0, rfl⟩ := Int.eq_ofNat_of_zero_le h0.1
  obtain ⟨n1, rfl⟩ := Int.eq_ofNat_of_zero_le h1.1
  obtain ⟨n2, rfl⟩ := Int.eq_ofNat_of_zero_le h2.1
  obtain ⟨n3, rfl⟩ := Int.eq_ofNat_of_zero_le h3.1
  unfold lw_spec_word
  rw [lor_of_bytes n0 n1 n2 n3 (by omega) (by omega) (by omega)]
  simp only [shl32_eq_wrap32_8, shl32_eq_wrap32_16, shl32_eq_wrap32_24, add32,
    wrap32_add_left, wrap32_add_right, zero_add]

/-- C14: in every state reachable from `init` by `step` calls, `lw` into
`rd ≠ 0` leaves in `rd` the composition
`byte0 | (byte1 << 8) | (byte2 << 16) | (byte3 << 24)` taken as a 32-bit signed
value, where `byte_i` is what `ht_get` returns at `address + i`: the sum that
the code accumulates is the bitwise or of the specification. -/
theorem lw_is_little_endian_or (m : Machine) (rd rb : Fin 32) (off : List Char)
    (hreach : reachable m) (hrd : rd ≠ 0) (hoff : '(' ∉ off) :
    ∃ b0 b1 b2 b3 m1,
      ht_get m.memory (add32 (m.registers.r rb) (imm_value off)) = some b0 ∧
      ht_get m.memory (add32 (add32 (m.registers.r rb) (imm_value off)) 1) = some b1 ∧
      ht_get m.memory (add32 (add32 (m.registers.r rb) (imm_value off)) 2) = some b2 ∧
      ht_get m.memory (add32 (add32 (m.registers.r rb) (imm_value off)) 3) = some b3 ∧
      step m (mem_text "lw".toList rd off rb) = some m1 ∧
      m1.registers.r rd = lw_spec_word b0 b1 b2 b3 := by
  obtain ⟨hok, hbytes⟩ := reachable_memory_inv m hreach
  have ha : isInt32 (add32 (m.registers.r rb) (imm_value off)) := isInt32_add32 _ _
  obtain ⟨b0, g0⟩ := memory_ok_ht_get m.memory hok _ ha
  obtain ⟨b1, g1⟩ := memory_ok_ht_get m.memory hok _ (isInt32_add32 _ 1)
  obtain ⟨b2, g2⟩ := memory_ok_ht_get m.memory hok _ (isInt32_add32 _ 2)
  obtain ⟨b3, g3⟩ := memory_ok_ht_get m.memory hok _ (isInt32_add32 _ 3)
  have hstep := step_lw_text m rd rb off hoff
  rw [step_lw_eq m rd _ _ _ _ _ g0 g1 g2 g3] at hstep
  refine ⟨b0, b1, b2, b3, _, g0, g1, g2, g3, hstep, ?_⟩
  rw [clear_x0_set_reg m rd _ hrd]
  exact lw_word_eq_spec b0 b1 b2 b3 (ht_get_byte _ _ _ hbytes g0) (ht_get_byte _ _ _ hbytes g1)
    (ht_get_byte _ _ _ hbytes g2) (ht_get_byte _ _ _ hbytes g3)

/-- Witness of C14: `lw x2,-1(x1)` in the state after `addi x1,x0,255` and
`sb x5,0(x1)`, where the byte `0xff` is the second of the four. -/
theorem lw_is_little_endian_or_witness :
    ∃ b0 b1 b2 b3 m1,
      ht_get machine_with_ff.memory
        (add32 (machine_with_ff.registers.r 1) (imm_value "-1".toList)) = some b0 ∧
      ht_get machine_with_ff.memory
        (add32 (add32 (machine_with_ff.registers.r 1) (imm_value "-1".toList)) 1) = some b1 ∧
      ht_get machine_with_ff.memory
        (add32 (add32 (machine_with_ff.registers.r 1) (imm_value "-1".toList)) 2) = some b2 ∧
      ht_get machine_with_ff.memory
        (add32 (add32 (machine_with_ff.registers.r 1) (imm_value "-1".toList)) 3) = some b3 ∧
      step machine_with_ff (mem_text "lw".toList 2 "-1".toList 1) = some m1 ∧
      m1.registers.r 2 = lw_spec_word b0 b1 b2 b3 :=
  lw_is_little_endian_or machine_with_ff 2 1 "-1".toList reachable_machine_with_ff
    (by decide) (by decide)

/-! ## Hexadecimal immediates -/

theorem char_le_iff (a b : Char) : a ≤ b ↔ a.toNat ≤ b.toNat := Iff.rfl

theorem char_eq_iff (a b : Char) : a = b ↔ a.toNat = b.toNat := by
  constructor
  · intro h; rw [h]
  · intro h
    apply Char.ext
    exact UInt32.ext (by simpa [Char.toNat] using h)

theorem digit_value_hex (c : Char) (h : is_hex_digit c = true) :
    digit_value c = some (hex_digit_value c) ∧ hex_digit_value c < 16 := by
  unfold is_hex_digit at h
  simp only [Bool.or_eq_true, Bool.and_eq_true, decide_eq_true_eq] at h
  unfold digit_value hex_digit_value
  simp only [char_le_iff]
  have e0 : '0'.toNat = 48 := by decide
  have e9 : '9'.toNat = 57 := by decide
  have ea : 'a'.toNat = 97 := by decide
  have ez : 'z'.toNat = 122 := by decide
  have eA : 'A'.toNat = 65 := by decide
  have eZ : 'Z'.toNat = 90 := by decide
  rw [e0, e9, ea, ez, eA, eZ]
  rcases h with (h | h) | h
  · have c1 : 48 ≤ c.toNat ∧ c.toNat ≤ 57 := h
    have c2 : c.toNat ≤ 57 := h.2
    simp only [c1, c2, and_self, if_true]
    exact ⟨trivial, by omega⟩
  · have c1 : ¬ (48 ≤ c.toNat ∧ c.toNat ≤ 57) := by omega
    have c2 : ¬ c.toNat ≤ 57 := by omega
    have c3 : 97 ≤ c.toNat ∧ c.toNat ≤ 122 := by omega
    have c4 : 97 ≤ c.toNat := h.1
    simp only [c1, c2, c3, c4, and_self, if_true, if_false]
    have e : c.toNat - 97 + 10 = c.toNat - 87 := by omega
    exact ⟨by simp [e], by omega⟩
  · have c1 : ¬ (48 ≤ c.toNat ∧ c.toNat ≤ 57) := by omega
    have c2 : ¬ c.toNat ≤ 57 := by omega
    have c3 : ¬ (97 ≤ c.toNat ∧ c.toNat ≤ 122) := by omega
    have c4 : ¬ 97 ≤ c.toNat := by omega
    have c5 : 65 ≤ c.toNat ∧ c.toNat ≤ 90 := by omega
    simp only [c1, c2, c3, c4, c5, and_self, if_true, if_false]
    have e : c.toNat - 65 + 10 = c.toNat - 55 := by omega
    exact ⟨by simp [e], by omega⟩

theorem strtol_digits_hex (s : List Char) (h : ∀ c ∈ s, is_hex_digit c = true) :
    ∀ acc, strtol_digits 16 acc s
      = s.foldl (fun acc c => acc * 16 + hex_digit_value c) acc := by
  induction s with
  | nil => intro acc; rfl
  | cons c cs ih =>
    intro acc
    obtain ⟨hd, hlt⟩ := digit_value_hex c (h c (List.mem_cons_self _ _))
    simp only [strtol_digits, hd, hlt, if_true, List.foldl_cons]
    exact ih (fun x hx => h x (List.mem_cons_of_mem _ hx)) _

theorem hex_digit_plain (c : Char) (h : is_hex_digit c = true) :
    isspace c = false ∧ c ≠ '-' ∧ c ≠ '+' ∧ c ≠ 'x' ∧ c ≠ 'X' := by
  unfold is_hex_digit at h
  simp only [Bool.or_eq_true, Bool.and_eq_true, decide_eq_true_eq] at h
  have e1 : ' '.toNat = 32 := by decide
  have e2 : '\t'.toNat = 9 := by decide
  have e3 : '\n'.toNat = 10 := by decide
  have e4 : '\r'.toNat = 13 := by decide
  have e5 : '-'.toNat = 45 := by decide
  have e6 : '+'.toNat = 43 := by decide
  have e7 : 'x'.toNat = 120 := by decide
  have e8 : 'X'.toNat = 88 := by decide
  refine ⟨?_, ?_, ?_, ?_, ?_⟩
  · unfold isspace
    simp only [Bool.or_eq_false_iff, decide_eq_false_iff_not, char_eq_iff, e1, e2, e3, e4]
    omega
  · rw [Ne, char_eq_iff, e5]; omega
  · rw [Ne, char_eq_iff, e6]; omega
  · rw [Ne, char_eq_iff, e7]; omega
  · rw [Ne, char_eq_iff, e8]; omega

/-- On a string of hexadecimal digits `strtol` in base 16 returns its
hexadecimal value, clamped to `LONG_MAX`. -/
theorem strtol_hex (s : List Char) (h : ∀ c ∈ s, is_hex_digit c = true) :
    strtol s 16 = min (spec_hex_value s : Int) LONG_MAX := by
  unfold strtol spec_hex_value
  cases s with
  | nil => rfl
  | cons c cs =>
    obtain ⟨hsp, hm, hp, hx, hX⟩ := hex_digit_plain c (h c (List.mem_cons_self _ _))
    have hdrop : List.dropWhile isspace (c :: cs) = c :: cs := by
      simp [List.dropWhile, hsp]
    simp only [hdrop, List.head?_cons, Option.some.injEq, hm, hp, or_self, if_false, if_true,
      decide_False, Bool.false_eq_true]
    have hfold := strtol_digits_hex (c :: cs) h 0
    cases cs with
    | nil =>
      split
      · rename_i heq
        simp at heq
      · rename_i heq
        simp at heq
      · rw [hfold]
    | cons d ds =>
      obtain ⟨_, _, _, dx, dX⟩ := hex_digit_plain d
        (h d (List.mem_cons_of_mem _ (List.mem_cons_self _ _)))
      split
      · rename_i heq
        simp only [List.cons.injEq] at heq
        exact absurd heq.2.1 dx
      · rename_i heq
        simp only [List.cons.injEq] at heq
        exact absurd heq.2.1 dX
      · rw [hfold]

theorem get_immediate_0x (h : List Char) :
    get_immediate ('0' :: 'x' :: h) = wrap32 (strtol h 16) := rfl

theorem get_immediate_neg_0x (h : List Char) :
    get_immediate ('-' :: '0' :: 'x' :: h) = wrap32 (-1 * strtol h 16) := rfl

/-- C13, as stated, fails: the token `0xffffffff`, whose characters after the
prefix have the hexadecimal value 4294967295, gives the negative number `-1`,
and the token `-0xffffffff` gives `1`, not `-4294967295`. -/
theorem get_immediate_hex_not_value :
    spec_hex_value "ffffffff".toList = 4294967295 ∧
    get_immediate "0xffffffff".toList = -1 ∧
    ¬ (0 ≤ get_immediate "0xffffffff".toList ∧
        get_immediate "0xffffffff".toList = (spec_hex_value "ffffffff".toList : Int)) ∧
    get_immediate "-0xffffffff".toList = 1 ∧
    get_immediate "-0xffffffff".toList ≠ -(spec_hex_value "ffffffff".toList : Int) := by
  decide

/-- C13, amended: for a token made of `0x` and hexadecimal digits only, whose
hexadecimal value `v` is at most `2^63 - 1`, `get_immediate` returns `v`
wrapped to 32-bit two's complement, which is `v` itself, a non-negative
number, when `v < 2^31`; for `-0x` and such digits it returns `-v` wrapped to
32 bits, which is `-v` itself when `v ≤ 2^31`. -/
theorem get_immediate_hex (h : List Char) (hd : ∀ c ∈ h, is_hex_digit c = true)
    (hv : (spec_hex_value h : Int) ≤ LONG_MAX) :
    get_immediate ('0' :: 'x' :: h) = wrap32 (spec_hex_value h) ∧
    get_immediate ('-' :: '0' :: 'x' :: h) = wrap32 (-(spec_hex_value h : Int)) ∧
    (spec_hex_value h < 2147483648 →
      get_immediate ('0' :: 'x' :: h) = (spec_hex_value h : Int) ∧
      0 ≤ get_immediate ('0' :: 'x' :: h)) ∧
    (spec_hex_value h ≤ 2147483648 →
      get_immediate ('-' :: '0' :: 'x' :: h) = -(spec_hex_value h : Int)) := by
  have hs : strtol h 16 = (spec_hex_value h : Int) := by
    rw [strtol_hex h hd]
    exact min_eq_left hv
  rw [get_immediate_0x, get_immediate_neg_0x, hs]
  have e : -1 * (spec_hex_value h : Int) = -(spec_hex_value h : Int) := by omega
  rw [e]
  refine ⟨rfl, rfl, ?_, ?_⟩
  · intro hlt
    have hw : wrap32 (spec_hex_value h : Int) = (spec_hex_value h : Int) :=
      wrap32_of_isInt32 (by unfold isInt32; omega)
    rw [hw]
    exact ⟨rfl, by omega⟩
  · intro hle
    exact wrap32_of_isInt32 (by unfold isInt32; omega)

/-- Witness of C13 amended: the tokens `0x7fffffff` and `-0x80000000`. -/
theorem get_immediate_hex_witness :
    (get_immediate "0x7fffffff".toList = 2147483647) ∧
    (get_immediate "-0x80000000".toList = -2147483648) :=
  ⟨((get_immediate_hex "7fffffff".toList (by decide) (by decide)).2.2.1 (by decide)).1,
   (get_immediate_hex "80000000".toList (by decide) (by decide)).2.2.2 (by decide)⟩

end CodeSamples
